import Mathlib

/-!
Verification of the gtirb-rewriting IR mutation engine.

This file gives a shallow embedding of the core of `gtirb_rewriting`
(files `utils.py` and `rewriting.py`): the dual-keyed offset mapping
(`OffsetMapping`), the splice engine (`_modify_block_insert` and
`_modify_block_insert_cfg`), and the rewriting-context helpers
(`_update_leaf_functions`, `_invoke_patch`, `decorate_extern_symbol`,
`_is_elf_pie`), together with theorems settling the specification
claims about them.

Conventions of the embedding:
* Python integers are modelled as `Int` (block offsets, block sizes,
  byte-interval sizes, displacement keys); byte strings as `List Nat`.
* Python slices `xs[:n]` / `xs[n:]` for the non-negative indices that
  occur in this code are modelled by `pyTake` / `pyDrop`.
* GTIRB's CFG is a set of edges; it is modelled as a `List Edge` with
  set semantics (`Cfg.add` inserts when absent, `Cfg.discard` removes
  every copy), matching `gtirb.CFG.add` / `discard`.
* Python `dict`s are modelled as association lists with first-match
  lookup; `dict.__setitem__` is `assocSet` (replace-or-append), which
  preserves the insertion-order semantics of CPython dicts.
* In-place mutation of block records, symbols and CFGs is modelled by
  explicit state passing (`CfgState`, `EngineState`); `AssertionError`
  and `NotImplementedError` are the two error outcomes of `Except`.
-/

/-- Identifier of a gtirb code block (block objects are mutated through
a store `BlockId → Block`). -/

abbrev BlockId := Nat

/-- The `type` field of a `gtirb.Edge.Label`. -/
inductive EdgeType where
  | fallthrough
  | branch
  | call
  | ret
deriving DecidableEq, Repr

/-- A CFG edge `(source, target, label)`; `label` is optional exactly as
in gtirb, where `edge.label` may be `None`. -/
structure Edge where
  source : BlockId
  target : BlockId
  label : Option EdgeType
deriving DecidableEq, Repr

/-- A CFG is a set of edges, modelled as a list with set semantics. -/
abbrev Cfg := List Edge

/-- Model of `_is_fallthrough_edge`: `edge.label and
edge.label.type == Fallthrough`. -/
def _is_fallthrough_edge (e : Edge) : Bool :=
  match e.label with
  | some EdgeType.fallthrough => true
  | _ => false

/-- Model of `gtirb.CFG.add`: no-op when the edge is already present. -/
def Cfg.add (c : Cfg) (e : Edge) : Cfg :=
  if e ∈ c then c else c ++ [e]

/-- Model of `gtirb.CFG.discard`: removes the edge (every copy). -/
def Cfg.discard (c : Cfg) (e : Edge) : Cfg :=
  c.filter (fun x => decide (x ≠ e))

/-- Model of `block.outgoing_edges` / `cfg.out_edges(block)`. -/
def Cfg.outEdges (c : Cfg) (b : BlockId) : Cfg :=
  c.filter (fun e => decide (e.source = b))

/-- Model of `cfg.in_edges(block)`. -/
def Cfg.inEdges (c : Cfg) (b : BlockId) : Cfg :=
  c.filter (fun e => decide (e.target = b))

/-- Model of `cfg.update(new_cfg)`: add every edge of the second CFG. -/
def Cfg.update (c newC : Cfg) : Cfg :=
  newC.foldl Cfg.add c

/-- A code block record: `(offset, size)` relative to its byte
interval, both arbitrary-precision integers as in Python. -/
structure Block where
  offset : Int
  size : Int
deriving DecidableEq, Repr

/-- Pointwise update of the block store, modelling in-place mutation of
one block object. -/
def setBlk (s : BlockId → Block) (i : BlockId) (b : Block) : BlockId → Block :=
  fun j => if j = i then b else s j

/-- A gtirb symbol: an identity plus an optional block referent. -/
structure GSymbol where
  sid : Nat
  referent : Option BlockId
deriving DecidableEq, Repr

/-- Python slice `xs[:n]` for a non-negative integer index `n` (the
only case arising in the modelled code paths). -/
def pyTake (n : Int) (xs : List Nat) : List Nat := xs.take n.toNat

/-- Python slice `xs[n:]` for a non-negative integer index `n`. -/
def pyDrop (n : Int) (xs : List Nat) : List Nat := xs.drop n.toNat

/-! Association lists with `dict` semantics (first-match lookup,
replace-or-append insertion). Displacement keys are `Int`, values are
opaque identifiers (`Nat`). -/

/-- Lookup in a displacement map (Python `d[k]` / `k in d`). -/
def alookup (k : Int) : List (Int × Nat) → Option Nat
  | [] => none
  | kv :: rest => if kv.1 = k then some kv.2 else alookup k rest

/-- Python `d[k] = v` on a displacement map: replace the first binding
of `k`, or append a new binding. -/
def assocSet (k : Int) (v : Nat) : List (Int × Nat) → List (Int × Nat)
  | [] => [(k, v)]
  | kv :: rest => if kv.1 = k then (k, v) :: rest else kv :: assocSet k v rest

/-- Lookup of an element's displacement submap (Python
`self._data[elem]`). Element keys are node identifiers (`Nat`). -/
def elookup (k : Nat) : List (Nat × List (Int × Nat)) → Option (List (Int × Nat))
  | [] => none
  | kv :: rest => if kv.1 = k then some kv.2 else elookup k rest

/-- An `OffsetMapping`'s internal two-level data:
`element → displacement → value`. -/
abbrev OffsetMapping := List (Nat × List (Int × Nat))

/-- Model of `OffsetMapping.__delitem__` with a non-Offset key:
`del self._data[key]`. -/
def OffsetMapping.delElem (m : OffsetMapping) (elem : Nat) : OffsetMapping :=
  m.filter (fun kv => decide (kv.1 ≠ elem))

/-- Model of `OffsetMapping.__setitem__` with a non-Offset key:
`self._data.setdefault(key, {}).update(value)`.  Note that this
merges `value` into any existing submap (it does not replace it). -/
def OffsetMapping.setElem (m : OffsetMapping) (elem : Nat)
    (dm : List (Int × Nat)) : OffsetMapping :=
  let sub := (elookup elem m).getD []
  let sub' := dm.foldl (fun s kv => assocSet kv.1 kv.2 s) sub
  if (elookup elem m).isSome then
    m.map (fun kv => if kv.1 = elem then (elem, sub') else kv)
  else
    m ++ [(elem, sub')]

/-- Model of `OffsetMapping.__getitem__` with an `Offset(elem, disp)`
key (`none` models `KeyError`). -/
def OffsetMapping.getOffset (m : OffsetMapping) (elem : Nat) (disp : Int) :
    Option Nat :=
  match elookup elem m with
  | none => none
  | some dm => alookup disp dm

/-! The splice engine (`utils.py`): `_substitute_block`,
`_modify_block_insert_cfg` and `_modify_block_insert`. The mutable
context of `_modify_block_insert_cfg` (the block store, the module
CFG `bi.ir.cfg`, and the fragment's `new_blocks`/`new_cfg`/
`new_symbols`, all mutated in place by the Python code) is threaded
as a `CfgState`. -/

/-- The state mutated by `_modify_block_insert_cfg`. -/
structure CfgState where
  blocks : BlockId → Block
  modCfg : Cfg
  newBlocks : List BlockId
  newCfg : Cfg
  newSymbols : List GSymbol

/-- The two failure modes of the engine: `AssertionError` (precondition
checks) and `NotImplementedError` (the unresolved-zero-block fallback
of `_modify_block_insert_cfg`). -/
inductive SpliceErr where
  | assertionFailed
  | notImplementedError
deriving DecidableEq, Repr

/-- Model of `_substitute_block(old_block, new_block, cfg, symbols)`:
redirect the in-edges, then the out-edges, of `old_block` to
`new_block`, and migrate symbol referents. -/
def _substitute_block (old_block new_block : BlockId) (cfg : Cfg)
    (symbols : List GSymbol) : Cfg × List GSymbol :=
  let cfg1 := ((cfg.inEdges old_block).dedup).foldl
    (fun c e => (c.discard e).add { e with target := new_block }) cfg
  let cfg2 := ((cfg1.outEdges old_block).dedup).foldl
    (fun c e => (c.discard e).add { e with source := new_block }) cfg1
  (cfg2,
    symbols.map (fun s =>
      if s.referent = some old_block then { s with referent := some new_block }
      else s))

/-- Steps 1-2 of the general case of `_modify_block_insert_cfg`:
`block.size = offset` and `new_blocks[-1].size += original_size -
offset - replacement_length`. -/
def truncateAndExtend (block lastB : BlockId) (offset rl originalSize : Int)
    (s : CfgState) : CfgState :=
  let s1 := { s with
    blocks := setBlk s.blocks block { s.blocks block with size := offset } }
  { s1 with
    blocks := setBlk s1.blocks lastB
      { s1.blocks lastB with
        size := (s1.blocks lastB).size + (originalSize - offset - rl) } }

/-- Step 3: add a fall-through edge from the original block to the
first patch block, unless inserting at the end of a block that has no
fall-through edges. -/
def addFallthroughEdge (block first : BlockId) (insertsAtEnd : Bool)
    (s : CfgState) : CfgState :=
  if !insertsAtEnd
      || (s.modCfg.outEdges block).any (fun e => _is_fallthrough_edge e) then
    { s with
      newCfg := s.newCfg.add
        { source := block, target := first, label := some EdgeType.fallthrough } }
  else s

/-- One iteration of the outgoing-edge redirection loop of
`_modify_block_insert_cfg` (lines 404-419 of `utils.py`). -/
def redirectStep (insertsAtEnd replacesLast : Bool) (lastB : BlockId)
    (s : CfgState) (e : Edge) : CfgState :=
  if insertsAtEnd then
    if _is_fallthrough_edge e then
      { s with
        modCfg := s.modCfg.discard e,
        newCfg := s.newCfg.add { e with source := lastB } }
    else s
  else if replacesLast then
    if _is_fallthrough_edge e then
      { s with
        modCfg := s.modCfg.discard e,
        newCfg := s.newCfg.add { e with source := lastB } }
    else { s with modCfg := s.modCfg.discard e }
  else
    { s with
      modCfg := s.modCfg.discard e,
      newCfg := s.newCfg.add { e with source := lastB } }

/-- Step 4: alter outgoing edges of the original block, iterating over
`set(block.outgoing_edges)` materialised before the loop. -/
def redirectOutgoing (block lastB : BlockId) (insertsAtEnd replacesLast : Bool)
    (s : CfgState) : CfgState :=
  ((s.modCfg.outEdges block).dedup).foldl
    (redirectStep insertsAtEnd replacesLast lastB) s

/-- Step 5: zero-size repair for the head (`if block.size == 0`).  The
`none` branch of `find?` models the `StopIteration` crash of `next`,
which cannot occur for inputs satisfying the preconditions. -/
def headRepair (block first : BlockId) (s : CfgState) :
    Except SpliceErr CfgState :=
  if (s.blocks block).size = 0 then
    match (s.newCfg.inEdges first).find?
        (fun e => _is_fallthrough_edge e && decide (e.source = block)) with
    | none => Except.error SpliceErr.assertionFailed
    | some added =>
      let s1 := { s with newCfg := s.newCfg.discard added }
      let s2 := { s1 with
        blocks := setBlk s1.blocks block
          { s1.blocks block with size := (s1.blocks first).size } }
      let sub := _substitute_block first block s2.newCfg s2.newSymbols
      Except.ok
        { s2 with newCfg := sub.1, newSymbols := sub.2,
                  newBlocks := s2.newBlocks.tail }
  else Except.ok s

/-- Step 6: zero-size repair for the tail
(`if new_blocks and new_blocks[-1].size == 0`). -/
def tailRepair (s : CfgState) : Except SpliceErr CfgState :=
  match s.newBlocks.getLast? with
  | none => Except.ok s
  | some lastB =>
    if (s.blocks lastB).size = 0 then
      let hasSymbols := s.newSymbols.any (fun sym => decide (sym.referent = some lastB))
      let hasIncomingEdges := !(s.newCfg.inEdges lastB).isEmpty
      let fallthroughEdges :=
        (s.newCfg.outEdges lastB).filter (fun e => _is_fallthrough_edge e)
      if !hasSymbols && !hasIncomingEdges then
        Except.ok { s with
          newCfg := (s.newCfg.outEdges lastB).foldl Cfg.discard s.newCfg,
          newBlocks := s.newBlocks.dropLast }
      else
        match fallthroughEdges with
        | [ft1] =>
          let sub := _substitute_block lastB ft1.target s.newCfg s.newSymbols
          Except.ok { s with
            newCfg := sub.1, newSymbols := sub.2,
            newBlocks := s.newBlocks.dropLast }
        | _ => Except.error SpliceErr.notImplementedError
    else Except.ok s

/-- Model of `_modify_block_insert_cfg(block, offset,
replacement_length, new_bytes, new_blocks, new_cfg, ...)`; `nbLen` is
`len(new_bytes)`. -/
def _modify_block_insert_cfg (block : BlockId) (offset rl nbLen : Int)
    (s : CfgState) : Except SpliceErr CfgState :=
  let originalSize := (s.blocks block).size
  let insertsAtEnd := decide (rl = 0 ∧ offset = originalSize)
  let replacesLast := decide (rl ≠ 0 ∧ offset + rl = originalSize)
  if s.newCfg = [] ∧ s.newSymbols = [] ∧ insertsAtEnd = false ∧ replacesLast = false then
    Except.ok { s with
      blocks := setBlk s.blocks block
        { s.blocks block with size := originalSize - rl + nbLen },
      newBlocks := [] }
  else
    match s.newBlocks with
    | [] => Except.error SpliceErr.assertionFailed
    | first :: rest =>
      let lastB := List.getLastD (first :: rest) first
      let s1 := truncateAndExtend block lastB offset rl originalSize s
      let s2 := addFallthroughEdge block first insertsAtEnd s1
      let s3 := redirectOutgoing block lastB insertsAtEnd replacesLast s2
      match headRepair block first s3 with
      | Except.error e => Except.error e
      | Except.ok s4 => tailRepair s4

/-- The element-keyed aux tables and the rest of the byte interval's
module, as far as `_modify_block_insert` touches them. -/
structure AuxTable where
  isOffsetMapping : Bool
  data : OffsetMapping
deriving DecidableEq, Repr

/-- The state mutated by `_modify_block_insert`: the block store, the
byte interval of `block`, the module CFG, the module symbols and the
three offset-keyed aux tables. -/
structure EngineState where
  blocks : BlockId → Block
  biElem : Nat
  biBlocks : List BlockId
  biSize : Int
  biContents : List Nat
  biSymExprs : List (Int × Nat)
  modCfg : Cfg
  modSymbols : List GSymbol
  auxComments : Option AuxTable
  auxPadding : Option AuxTable
  auxSymExprSizes : Option AuxTable

/-- The displacement-map rewrite used (twice, verbatim) by
`_modify_block_insert`: `{(k + size_delta if k >= offset else k): v
for k, v in m.items() if k < offset or k >= offset +
replacement_length}` with `size_delta = nbLen - rl`. -/
def shiftDisplacementMap (offset rl nbLen : Int) (m : List (Int × Nat)) :
    List (Int × Nat) :=
  (m.filter (fun kv => decide (kv.1 < offset ∨ offset + rl ≤ kv.1))).map
    (fun kv => (if offset ≤ kv.1 then kv.1 + (nbLen - rl) else kv.1, kv.2))

/-- Model of the local helper `update_aux_data_keyed_by_offset(name)`
of `_modify_block_insert`: upgrade the table to an `OffsetMapping` if
necessary, then rewrite the byte interval's displacement submap. -/
def update_aux_data_keyed_by_offset (offset rl nbLen : Int) (biElem : Nat)
    (t : Option AuxTable) : Option AuxTable :=
  match t with
  | none => none
  | some table =>
    let table1 :=
      if table.isOffsetMapping then table else { table with isOffsetMapping := true }
    match elookup biElem table1.data with
    | none => some table1
    | some dm =>
      let data1 := table1.data.delElem biElem
      some { table1 with
        data := data1.setElem biElem (shiftDisplacementMap offset rl nbLen dm) }

/-- The `assert` statements at the head of `_modify_block_insert`
(lines 243-259 of `utils.py`). -/
def spliceAsserts (block : BlockId) (offset rl : Int) (newBytes : List Nat)
    (newBlocks : List BlockId) (newCfg : Cfg) (st : EngineState) : Prop :=
  (st.blocks block).size ≠ 0 ∧
  0 ≤ offset ∧ offset ≤ (st.blocks block).size ∧
  0 ≤ offset + rl ∧ offset + rl ≤ (st.blocks block).size ∧
  0 ≤ rl ∧
  newBytes ≠ [] ∧
  newBlocks ≠ [] ∧
  block ∉ newBlocks ∧
  (∀ b ∈ newBlocks.take 1, (st.blocks b).size ≠ 0) ∧
  (∀ b ∈ newBlocks.dropLast, (st.blocks b).size ≠ 0) ∧
  (∀ lb ∈ newBlocks.getLast?.toList, newCfg.outEdges lb = []) ∧
  block ∈ st.biBlocks

instance (block : BlockId) (offset rl : Int) (newBytes : List Nat)
    (newBlocks : List BlockId) (newCfg : Cfg) (st : EngineState) :
    Decidable (spliceAsserts block offset rl newBytes newBlocks newCfg st) := by
  unfold spliceAsserts
  infer_instance

/-- The block-offset adjustments of `_modify_block_insert` after the
CFG step: shift every byte-interval block at or after the insertion
point `p` by `size_delta`, then translate the fragment blocks from
fragment-relative to byte-interval-relative offsets (`b.offset +=
offset`). -/
def postBlocks (block : BlockId) (p sizeDelta : Int) (biBlocks : List BlockId)
    (newBlocksL : List BlockId) (bs : BlockId → Block) : BlockId → Block :=
  let blocks1 := biBlocks.foldl
    (fun bs b =>
      if b ≠ block ∧ p ≤ (bs b).offset then
        setBlk bs b { bs b with offset := (bs b).offset + sizeDelta }
      else bs) bs
  newBlocksL.foldl
    (fun bs b => setBlk bs b { bs b with offset := (bs b).offset + p }) blocks1

/-- The state produced by the tail of `_modify_block_insert` (lines
273-332 of `utils.py`) from the post-CFG-step state `cs`: splice the
contents, shift offsets, extend `bi.blocks`, rewrite the symbolic
expressions, merge the fragment CFG and symbols, and rewrite the three
offset-keyed aux tables. -/
def spliceFinalize (block : BlockId) (offset rl : Int) (newBytes : List Nat)
    (newSymExprs : List (Int × Nat)) (st : EngineState) (cs : CfgState) :
    EngineState :=
  let sizeDelta : Int := (newBytes.length : Int) - rl
  let p : Int := offset + (cs.blocks block).offset
  { blocks := postBlocks block p sizeDelta st.biBlocks cs.newBlocks cs.blocks,
    biElem := st.biElem,
    biBlocks :=
      st.biBlocks ++ cs.newBlocks.filter (fun b => decide (b ∉ st.biBlocks)),
    biSize := st.biSize + sizeDelta,
    biContents :=
      pyTake p st.biContents ++ newBytes ++ pyDrop (p + rl) st.biContents,
    biSymExprs := newSymExprs.foldl (fun m kv => assocSet (p + kv.1) kv.2 m)
      (shiftDisplacementMap p rl (newBytes.length : Int) st.biSymExprs),
    modCfg := Cfg.update cs.modCfg cs.newCfg,
    modSymbols := cs.newSymbols.foldl
      (fun ss sym => if sym ∈ ss then ss else ss ++ [sym]) st.modSymbols,
    auxComments := update_aux_data_keyed_by_offset p rl
      (newBytes.length : Int) st.biElem st.auxComments,
    auxPadding := update_aux_data_keyed_by_offset p rl
      (newBytes.length : Int) st.biElem st.auxPadding,
    auxSymExprSizes := update_aux_data_keyed_by_offset p rl
      (newBytes.length : Int) st.biElem st.auxSymExprSizes }

/-- Model of `_modify_block_insert(block, offset, replacement_length,
new_bytes, new_blocks, new_cfg, new_symbolic_expressions,
new_symbols)` from `utils.py`. -/
def _modify_block_insert (block : BlockId) (offset rl : Int)
    (newBytes : List Nat) (newBlocks : List BlockId) (newCfg : Cfg)
    (newSymExprs : List (Int × Nat)) (newSymbols : List GSymbol)
    (st : EngineState) : Except SpliceErr EngineState :=
  if spliceAsserts block offset rl newBytes newBlocks newCfg st then
    match _modify_block_insert_cfg block offset rl (newBytes.length : Int)
        { blocks := st.blocks, modCfg := st.modCfg, newBlocks := newBlocks,
          newCfg := newCfg, newSymbols := newSymbols } with
    | Except.error e => Except.error e
    | Except.ok cs =>
      let sizeDelta : Int := (newBytes.length : Int) - rl
      let p : Int := offset + (cs.blocks block).offset
      let blocks2 := postBlocks block p sizeDelta st.biBlocks cs.newBlocks cs.blocks
      if (blocks2 block).size ≠ 0 ∧ (∀ b ∈ cs.newBlocks, (blocks2 b).size ≠ 0) then
        Except.ok (spliceFinalize block offset rl newBytes newSymExprs st cs)
      else Except.error SpliceErr.assertionFailed
  else Except.error SpliceErr.assertionFailed

/-! The `rewriting.py` helpers: `_is_elf_pie`, `decorate_extern_symbol`,
`_might_be_leaf_function`, `_update_leaf_functions`, `_invoke_patch`. -/

/-- `gtirb.Module.FileFormat` (the constructors the code inspects). -/
inductive FileFormat where
  | elf
  | pe
  | undefined
deriving DecidableEq, Repr

/-- The slice of `gtirb.Module` consulted by `_is_elf_pie` and
`decorate_extern_symbol`: the file format and the `binaryType` aux
table contents. -/
structure GtirbModule where
  fileFormat : FileFormat
  binaryType : List String
deriving DecidableEq, Repr

/-- Model of `_is_elf_pie(module)`: ELF file format and a `DYN` marker
in the `binaryType` aux table. -/
def _is_elf_pie (m : GtirbModule) : Bool :=
  decide (m.fileFormat = FileFormat.elf) && decide ("DYN" ∈ m.binaryType)

/-- Model of `decorate_extern_symbol(module, sym)` from `utils.py`:
the function returns the symbol name unchanged for every module. -/
def decorate_extern_symbol (m : GtirbModule) (sym : String) : String :=
  sym

/-- A `gtirb_functions.Function` as consulted by
`_might_be_leaf_function`: its uuid and its blocks. -/
structure GFunction where
  uuid : Nat
  blocks : List BlockId
deriving DecidableEq, Repr

/-- Lookup in a uuid-keyed table (`leafFunctions`). -/
def lookupUuid (k : Nat) : List (Nat × Nat) → Option Nat
  | [] => none
  | kv :: rest => if kv.1 = k then some kv.2 else lookupUuid k rest

/-- Model of `RewritingContext._might_be_leaf_function`: no block of
the function has an outgoing `Call` edge
(`not edge.label or edge.label.type != gtirb.Edge.Type.Call`). -/
def _might_be_leaf_function (cfg : Cfg) (f : GFunction) : Bool :=
  f.blocks.all (fun b =>
    (cfg.outEdges b).all (fun e => decide (e.label ≠ some EdgeType.call)))

/-- The body of the `for func in self._functions` loop of
`_update_leaf_functions`: `if func.uuid not in leaf_functions:
leaf_functions[func.uuid] = int(self._might_be_leaf_function(func))`
(a new dict key is appended in insertion order). -/
def leafStep (cfg : Cfg) (t : List (Nat × Nat)) (f : GFunction) :
    List (Nat × Nat) :=
  if (lookupUuid f.uuid t).isSome then t
  else t ++ [(f.uuid, if _might_be_leaf_function cfg f then 1 else 0)]

/-- Model of `RewritingContext._update_leaf_functions`: get or insert
the `leafFunctions` aux table, then add an entry for every function
whose uuid is not yet a key (`int(self._might_be_leaf_function(func))`),
leaving existing entries alone. -/
def _update_leaf_functions (cfg : Cfg) (functions : List GFunction)
    (leafTable : Option (List (Nat × Nat))) : List (Nat × Nat) :=
  let leaf_functions := leafTable.getD []
  functions.foldl (leafStep cfg) leaf_functions

/-- A patch as consumed by `_invoke_patch`: an opaque constraints
record (an identifier) and `get_asm(context, *scratch_registers)`,
modelled as a function of the stack adjustment and the scratch
registers. -/
structure Patch where
  constraints : Nat
  getAsm : Int → List Nat → String

/-- The rewriting context state threaded through `_invoke_patch`: the
running `_patch_id`, the `leafFunctions` table and the module. -/
structure RWState where
  patchId : Nat
  leafFunctions : List (Nat × Nat)
  module : EngineState

/-- Model of `RewritingContext._invoke_patch` (`rewriting.py`).
The ABI helpers `_allocate_patch_registers` and
`_create_prologue_and_epilogue` live in `abi.py` (outside `src/`) and
are modelled from the spec (section 4.C) as pure parameter functions
returning the chosen registers and `(prologue, epilogue,
stack_adjustment)`; the assemble-and-splice tail of the function
(lines 188-242: the external assembler plus `_modify_block_insert`
of `modify.py`, also outside `src/`) is the opaque parameter
`assembleAndApply`, entered only after `self._patch_id += 1`.
The modelled control flow around the empty-assembly early return
(`if not asm: return block, 0`) is verbatim from `rewriting.py`. -/
def _invoke_patch
    (allocatePatchRegisters : Nat → List Nat)
    (createPrologueAndEpilogue : Nat → List Nat → Bool → List String × List String × Int)
    (assembleAndApply : RWState → RWState × BlockId × Nat)
    (patch : Patch) (funcUuid : Nat) (block : BlockId)
    (st : RWState) : RWState × BlockId × Nat :=
  let registers := allocatePatchRegisters patch.constraints
  let pe := createPrologueAndEpilogue patch.constraints registers
    (decide ((lookupUuid funcUuid st.leafFunctions).getD 1 ≠ 0))
  let asm := patch.getAsm pe.2.2 registers
  if asm = "" then (st, block, 0)
  else
    assembleAndApply { st with patchId := st.patchId + 1 }

/-- A concrete engine state used by witnesses. -/
def sampleEngineState : EngineState :=
  { blocks := fun i =>
      if i = 0 then { offset := 0, size := 10 }
      else if i = 1 then { offset := 0, size := 2 }
      else { offset := 0, size := 0 },
    biElem := 100,
    biBlocks := [0],
    biSize := 10,
    biContents := [0, 1, 2, 3, 4, 5, 6, 7, 8, 9],
    biSymExprs := [(6, 55)],
    modCfg := [],
    modSymbols := [],
    auxComments := some { isOffsetMapping := false, data := [(100, [(6, 77)])] },
    auxPadding := none,
    auxSymExprSizes := none }

/-- A concrete rewriting-context state used by witnesses. -/
def sampleRWState : RWState :=
  { patchId := 3, leafFunctions := [(9, 0)], module := sampleEngineState }

/-- Which outgoing edges of the original block the redirection loop
discards from the module CFG, by edit classification. -/
def discardsEdge (insertsAtEnd replacesLast : Bool) (e : Edge) : Bool :=
  if insertsAtEnd then _is_fallthrough_edge e
  else true

/-- Which outgoing edges of the original block the redirection loop
re-adds to the fragment CFG with source `new_blocks[-1]`, by edit
classification. -/
def movesEdge (insertsAtEnd replacesLast : Bool) (e : Edge) : Bool :=
  if insertsAtEnd then _is_fallthrough_edge e
  else if replacesLast then _is_fallthrough_edge e
  else true

/-- The per-element rewrite relation that claim C6 asserts between an
offset-keyed aux table before and after the splice: presence is
preserved, the table is upgraded to an `OffsetMapping`, entries of
other elements are untouched, and the byte interval's displacement
submap follows the `k < p` / `[p, p + replacement_length)` /
`k ≥ p + replacement_length` key policy. -/
def auxTableRewritten (p rl nbLen : Int) (biElem : Nat)
    (t t' : Option AuxTable) : Prop :=
  (t = none → t' = none) ∧
  ∀ table, t = some table →
    ∃ table', t' = some table' ∧
      table'.isOffsetMapping = true ∧
      (∀ e, e ≠ biElem → elookup e table'.data = elookup e table.data) ∧
      (elookup biElem table.data = none → elookup biElem table'.data = none) ∧
      (∀ dm, elookup biElem table.data = some dm → (dm.map Prod.fst).Nodup →
        ∀ d, OffsetMapping.getOffset table'.data biElem d =
          if d < p then alookup d dm
          else if d < p + nbLen then none
          else alookup (d - (nbLen - rl)) dm)

/-- A concrete engine state whose block 0 (size 6) ends in a branch
edge to block 50, used by witnesses for the redirection claims. -/
def sampleEngineState4 : EngineState :=
  { blocks := fun i =>
      if i = 0 then { offset := 0, size := 6 }
      else if i = 1 then { offset := 0, size := 2 }
      else { offset := 0, size := 0 },
    biElem := 100,
    biBlocks := [0],
    biSize := 10,
    biContents := [0, 1, 2, 3, 4, 5, 6, 7, 8, 9],
    biSymExprs := [],
    modCfg := [{ source := 0, target := 50, label := some EdgeType.branch }],
    modSymbols := [],
    auxComments := none,
    auxPadding := none,
    auxSymExprSizes := none }

/-- Concrete state exercising the failing branch of the tail zero-size
repair: the last fragment block (id 2) has size 0, a symbol refers to
it, and it has two outgoing fall-through edges. -/
def sampleCfgStateTail : CfgState :=
  { blocks := fun b =>
      if b = 2 then { offset := 0, size := 0 } else { offset := 0, size := 4 },
    modCfg := [],
    newBlocks := [1, 2],
    newCfg := [{ source := 2, target := 7, label := some EdgeType.fallthrough },
               { source := 2, target := 8, label := some EdgeType.fallthrough }],
    newSymbols := [{ sid := 5, referent := some 2 }] }

theorem Cfg.mem_add {c : Cfg} {e x : Edge} : x ∈ c.add e ↔ x ∈ c ∨ x = e := by
  unfold Cfg.add
  split
  · rename_i h
    constructor
    · exact Or.inl
    · rintro (hx | rfl) <;> [exact hx; exact h]
  · simp [List.mem_append]

theorem Cfg.mem_discard {c : Cfg} {e x : Edge} :
    x ∈ c.discard e ↔ x ∈ c ∧ x ≠ e := by
  unfold Cfg.discard
  simp

theorem Cfg.mem_outEdges {c : Cfg} {b : BlockId} {e : Edge} :
    e ∈ c.outEdges b ↔ e ∈ c ∧ e.source = b := by
  unfold Cfg.outEdges
  simp

theorem Cfg.mem_inEdges {c : Cfg} {b : BlockId} {e : Edge} :
    e ∈ c.inEdges b ↔ e ∈ c ∧ e.target = b := by
  unfold Cfg.inEdges
  simp

theorem Cfg.mem_update {c newC : Cfg} {e : Edge} :
    e ∈ c.update newC ↔ e ∈ c ∨ e ∈ newC := by
  unfold Cfg.update
  induction newC generalizing c with
  | nil => simp
  | cons x xs ih =>
    simp only [List.foldl_cons, ih, Cfg.mem_add, List.mem_cons]
    tauto

theorem setBlk_same {s : BlockId → Block} {i : BlockId} {b : Block} :
    setBlk s i b i = b := by simp [setBlk]

theorem setBlk_other {s : BlockId → Block} {i j : BlockId} {b : Block}
    (h : j ≠ i) : setBlk s i b j = s j := by simp [setBlk, h]

theorem alookup_assocSet {k k0 : Int} {v : Nat} {m : List (Int × Nat)} :
    alookup k (assocSet k0 v m) = if k0 = k then some v else alookup k m := by
  induction m with
  | nil =>
    by_cases h : k0 = k <;> simp [assocSet, alookup, h]
  | cons kv rest ih =>
    by_cases h1 : kv.1 = k0
    · by_cases h2 : k0 = k
      · subst h2
        simp [assocSet, alookup, h1]
      · simp only [assocSet, h1, if_pos]
        simp [alookup, h2, h1.symm ▸ h2, h1]
    · simp only [assocSet, h1, if_neg h1]
      by_cases h3 : kv.1 = k
      · have : ¬ k0 = k := fun h => h1 (h3 ▸ h.symm ▸ rfl)
        simp [alookup, h3, this]
      · simp [alookup, h3, ih]

/-! Support lemmas for the offset mapping and the leaf-function table. -/

theorem alookup_eq_none_of_not_mem {k : Int} {m : List (Int × Nat)}
    (h : k ∉ m.map Prod.fst) : alookup k m = none := by
  induction m with
  | nil => rfl
  | cons kv rest ih =>
    simp only [List.map_cons, List.mem_cons] at h
    push_neg at h
    have hne : kv.1 ≠ k := fun he => h.1 he.symm
    simp only [alookup, if_neg hne, ih h.2]

theorem alookup_foldl_assocSet {dm : List (Int × Nat)}
    (hdm : (dm.map Prod.fst).Nodup) (d : Int) (s0 : List (Int × Nat)) :
    alookup d (dm.foldl (fun s kv => assocSet kv.1 kv.2 s) s0) =
      match alookup d dm with
      | some v => some v
      | none => alookup d s0 := by
  induction dm generalizing s0 with
  | nil => simp [alookup]
  | cons kv rest ih =>
    simp only [List.map_cons, List.nodup_cons] at hdm
    simp only [List.foldl_cons, ih hdm.2]
    by_cases h1 : kv.1 = d
    · subst h1
      rw [alookup_eq_none_of_not_mem hdm.1]
      simp [alookup, alookup_assocSet]
    · simp only [alookup, if_neg h1]
      cases halt : alookup d rest with
      | some v => simp
      | none => simp [alookup_assocSet, h1]

theorem elookup_append_single_absent {elem : Nat} {m : OffsetMapping}
    {x : List (Int × Nat)} (h : elookup elem m = none) :
    elookup elem (m ++ [(elem, x)]) = some x := by
  induction m with
  | nil => simp [elookup]
  | cons kv rest ih =>
    simp only [elookup] at h ⊢
    by_cases h1 : kv.1 = elem
    · simp [h1] at h
    · simp only [if_neg h1] at h ⊢
      exact ih h

theorem elookup_append_single_other {elem e : Nat} {m : OffsetMapping}
    {x : List (Int × Nat)} (hne : e ≠ elem) :
    elookup e (m ++ [(elem, x)]) = elookup e m := by
  induction m with
  | nil =>
    have h3 : elem ≠ e := fun he => hne he.symm
    simp [elookup, h3]
  | cons kv rest ih =>
    simp only [List.cons_append, elookup]
    by_cases h2 : kv.1 = e
    · simp [h2]
    · simp only [if_neg h2]
      exact ih

theorem elookup_map_replace {elem : Nat} {m : OffsetMapping}
    {sub' : List (Int × Nat)} (h : (elookup elem m).isSome = true) :
    elookup elem
      (m.map (fun kv => if kv.1 = elem then (elem, sub') else kv)) = some sub' := by
  induction m with
  | nil => simp [elookup] at h
  | cons kv rest ih =>
    by_cases h1 : kv.1 = elem
    · simp [elookup, h1]
    · simp only [elookup, if_neg h1] at h
      simp only [List.map_cons, if_neg h1, elookup, if_neg h1]
      exact ih h

theorem elookup_map_replace_other {elem e : Nat} {m : OffsetMapping}
    {sub' : List (Int × Nat)} (hne : e ≠ elem) :
    elookup e (m.map (fun kv => if kv.1 = elem then (elem, sub') else kv)) =
      elookup e m := by
  induction m with
  | nil => rfl
  | cons kv rest ih =>
    by_cases h1 : kv.1 = elem
    · have h3 : elem ≠ e := fun he => hne he.symm
      have h4 : kv.1 ≠ e := fun he => h3 (h1 ▸ he)
      simp only [List.map_cons, if_pos h1, elookup, if_neg h3, if_neg h4]
      exact ih
    · simp only [List.map_cons, if_neg h1, elookup]
      by_cases h2 : kv.1 = e
      · simp [h2]
      · simp only [if_neg h2]
        exact ih

theorem elookup_setElem_same {m : OffsetMapping} {elem : Nat}
    {dm : List (Int × Nat)} :
    elookup elem (m.setElem elem dm) =
      some (dm.foldl (fun s kv => assocSet kv.1 kv.2 s)
        ((elookup elem m).getD [])) := by
  unfold OffsetMapping.setElem
  by_cases h : (elookup elem m).isSome
  · simp only [h, if_true]
    exact elookup_map_replace h
  · simp only [h, if_false]
    have hnone : elookup elem m = none := by
      cases he : elookup elem m with
      | none => rfl
      | some x => rw [he] at h; simp at h
    exact elookup_append_single_absent hnone

theorem elookup_setElem_other {m : OffsetMapping} {elem e : Nat}
    {dm : List (Int × Nat)} (hne : e ≠ elem) :
    elookup e (m.setElem elem dm) = elookup e m := by
  unfold OffsetMapping.setElem
  by_cases h : (elookup elem m).isSome
  · simp only [h, if_true]
    exact elookup_map_replace_other hne
  · simp only [h, if_false]
    exact elookup_append_single_other hne

/-- C7 counterexample: `m[elem] = disp_map` does not replace the
submap.  Starting from a mapping with `Offset(1, 0) ↦ 10` and
assigning the displacement map `{1: 20}` to element `1`, the old entry
at displacement `0` — absent from the assigned map — still survives,
contradicting the claim that no such entry survives. -/
theorem offset_mapping_setitem_cex :
    OffsetMapping.getOffset
        (OffsetMapping.setElem [(1, [(0, 10)])] 1 [(1, 20)]) 1 0 = some 10 ∧
      alookup 0 [((1 : Int), 20)] = none := by
  constructor <;> rfl

/-- C7 (amended): `OffsetMapping.__setitem__` with an element key
merges the assigned displacement map into the element's existing
submap (`setdefault(key, {}).update(value)`): afterwards
`Offset(elem, d)` maps to `disp_map[d]` when `d` is a key of
`disp_map` and to its previous value (if any) otherwise, and entries
of other elements are untouched. -/
theorem offset_mapping_setitem_merges (m : OffsetMapping) (elem : Nat)
    (dm : List (Int × Nat)) (hdm : (dm.map Prod.fst).Nodup) :
    (∀ d : Int,
        OffsetMapping.getOffset (m.setElem elem dm) elem d =
          match alookup d dm with
          | some v => some v
          | none => OffsetMapping.getOffset m elem d) ∧
      (∀ e : Nat, e ≠ elem → ∀ d : Int,
        OffsetMapping.getOffset (m.setElem elem dm) e d =
          OffsetMapping.getOffset m e d) := by
  constructor
  · intro d
    unfold OffsetMapping.getOffset
    rw [elookup_setElem_same]
    show alookup d (dm.foldl (fun s kv => assocSet kv.1 kv.2 s)
      ((elookup elem m).getD [])) = _
    rw [alookup_foldl_assocSet hdm]
    cases halt : alookup d dm with
    | some v => simp [halt]
    | none =>
      simp only [halt]
      cases he : elookup elem m with
      | none => rfl
      | some s => rfl
  · intro e hne d
    unfold OffsetMapping.getOffset
    rw [elookup_setElem_other hne]

/-- C7 witness: a concrete merge where an entry absent from the
assigned map survives with its old value while an assigned key gets
its new value. -/
theorem offset_mapping_setitem_merges_witness :
    OffsetMapping.getOffset
        (OffsetMapping.setElem [(2, [(5, 30)])] 2 [(6, 40)]) 2 5 = some 30 := by
  have h := (offset_mapping_setitem_merges [(2, [(5, 30)])] 2 [(6, 40)] (by decide)).1 5
  simpa using h

/-- C8 counterexample: for an ELF PIE module (`_is_elf_pie` is true),
`decorate_extern_symbol` returns the name unchanged rather than a
decorated (e.g. PLT-marked) name. -/
theorem decorate_extern_symbol_elf_pie_cex :
    _is_elf_pie { fileFormat := FileFormat.elf, binaryType := ["DYN"] } = true ∧
      decorate_extern_symbol
        { fileFormat := FileFormat.elf, binaryType := ["DYN"] } "exit" = "exit" := by
  constructor <;> rfl

/-- C8 (amended): `decorate_extern_symbol` returns the symbol name
unchanged for every module, ELF PIE or not (the `_is_elf_pie` check is
present in the code but unused by it). -/
theorem decorate_extern_symbol_unchanged (m : GtirbModule) (sym : String) :
    decorate_extern_symbol m sym = sym := rfl

/-- C10: when a patch's `get_asm` returns the empty string,
`_invoke_patch` returns `(block, 0)` at once: the patch id is not
incremented, the assemble-and-splice tail is never entered, and the
whole rewriting state — module included — is returned unchanged. -/
theorem invoke_patch_empty_asm
    (allocatePatchRegisters : Nat → List Nat)
    (createPrologueAndEpilogue : Nat → List Nat → Bool → List String × List String × Int)
    (assembleAndApply : RWState → RWState × BlockId × Nat)
    (patch : Patch) (funcUuid : Nat) (block : BlockId) (st : RWState)
    (hempty : ∀ adj regs, patch.getAsm adj regs = "") :
    _invoke_patch allocatePatchRegisters createPrologueAndEpilogue
      assembleAndApply patch funcUuid block st = (st, block, 0) := by
  unfold _invoke_patch
  simp [hempty]

/-- C10 witness: a concrete empty-assembly patch invocation returning
the state unchanged. -/
theorem invoke_patch_empty_asm_witness :
    _invoke_patch (fun _ => []) (fun _ _ _ => ([], [], 0))
      (fun s => (s, 0, 0)) { constraints := 0, getAsm := fun _ _ => "" }
      9 7 sampleRWState = (sampleRWState, 7, 0) :=
  invoke_patch_empty_asm (fun _ => []) (fun _ _ _ => ([], [], 0))
    (fun s => (s, 0, 0)) { constraints := 0, getAsm := fun _ _ => "" }
    9 7 sampleRWState (fun _ _ => rfl)

theorem lookupUuid_append_single (t : List (Nat × Nat)) (k u v : Nat) :
    lookupUuid u (t ++ [(k, v)]) =
      match lookupUuid u t with
      | some w => some w
      | none => if k = u then some v else none := by
  induction t with
  | nil => rfl
  | cons kv rest ih =>
    simp only [List.cons_append, lookupUuid]
    by_cases h : kv.1 = u
    · simp [h]
    · simp only [if_neg h]
      exact ih

theorem leaf_foldl_preserves (cfg : Cfg) (L : List GFunction)
    (t : List (Nat × Nat)) (u v : Nat) (h : lookupUuid u t = some v) :
    lookupUuid u (L.foldl (leafStep cfg) t) = some v := by
  induction L generalizing t with
  | nil => exact h
  | cons f L' ih =>
    simp only [List.foldl_cons]
    apply ih
    unfold leafStep
    split
    · exact h
    · rw [lookupUuid_append_single, h]

theorem leaf_foldl_absent (cfg : Cfg) (L : List GFunction)
    (t : List (Nat × Nat)) (u : Nat) (hL : ∀ f ∈ L, f.uuid ≠ u)
    (h : lookupUuid u t = none) :
    lookupUuid u (L.foldl (leafStep cfg) t) = none := by
  induction L generalizing t with
  | nil => exact h
  | cons f L' ih =>
    simp only [List.foldl_cons]
    have hL' : ∀ g ∈ L', g.uuid ≠ u := fun g hg => hL g (List.mem_cons_of_mem f hg)
    have hstep : lookupUuid u (leafStep cfg t f) = none := by
      unfold leafStep
      split
      · exact h
      · rw [lookupUuid_append_single, h]
        simp only [if_neg (hL f (List.mem_cons_self f L'))]
    exact ih (leafStep cfg t f) hL' hstep

theorem leaf_foldl_new (cfg : Cfg) (L : List GFunction)
    (t : List (Nat × Nat)) (f : GFunction) (hf : f ∈ L)
    (hnd : (L.map GFunction.uuid).Nodup)
    (h : lookupUuid f.uuid t = none) :
    lookupUuid f.uuid (L.foldl (leafStep cfg) t) =
      some (if _might_be_leaf_function cfg f then 1 else 0) := by
  induction L generalizing t with
  | nil => cases hf
  | cons f0 L' ih =>
    simp only [List.map_cons, List.nodup_cons] at hnd
    simp only [List.foldl_cons]
    rcases List.mem_cons.mp hf with rfl | hf'
    · have hstep : lookupUuid f.uuid (leafStep cfg t f) =
          some (if _might_be_leaf_function cfg f then 1 else 0) := by
        unfold leafStep
        rw [h]
        simp only [Option.isSome_none, Bool.false_eq_true, if_neg, not_false_iff]
        rw [lookupUuid_append_single, h]
        simp
      exact leaf_foldl_preserves cfg L' _ _ _ hstep
    · have hne : f0.uuid ≠ f.uuid := by
        intro he
        exact hnd.1 (he ▸ List.mem_map_of_mem GFunction.uuid hf')
      have hstep : lookupUuid f.uuid (leafStep cfg t f0) = none := by
        unfold leafStep
        split
        · exact h
        · rw [lookupUuid_append_single, h, if_neg hne]
      exact ih (leafStep cfg t f0) hf' hnd.2 hstep

/-- C9: `_update_leaf_functions` preserves every entry already present
in the `leafFunctions` table, adds no entry for uuids that belong to
no function, and records the freshly computed might-be-leaf status
(as 1/0) exactly for the function uuids not yet present. -/
theorem update_leaf_functions_spec (cfg : Cfg) (functions : List GFunction)
    (leafTable : Option (List (Nat × Nat))) :
    (∀ u v, lookupUuid u (leafTable.getD []) = some v →
        lookupUuid u (_update_leaf_functions cfg functions leafTable) = some v) ∧
      (∀ u, lookupUuid u (leafTable.getD []) = none →
        (∀ f ∈ functions, f.uuid ≠ u) →
        lookupUuid u (_update_leaf_functions cfg functions leafTable) = none) ∧
      (∀ f ∈ functions, (functions.map GFunction.uuid).Nodup →
        lookupUuid f.uuid (leafTable.getD []) = none →
        lookupUuid f.uuid (_update_leaf_functions cfg functions leafTable) =
          some (if _might_be_leaf_function cfg f then 1 else 0)) := by
  refine ⟨?_, ?_, ?_⟩
  · intro u v h
    exact leaf_foldl_preserves cfg functions _ u v h
  · intro u h hL
    exact leaf_foldl_absent cfg functions _ u hL h
  · intro f hf hnd h
    exact leaf_foldl_new cfg functions _ f hf hnd h

/-- C9 witness: a table with an existing entry `(9 ↦ 0)` keeps it even
though the function might now be a leaf, while a new uuid `5` gets its
computed status. -/
theorem update_leaf_functions_spec_witness :
    lookupUuid 9
        (_update_leaf_functions [] [{ uuid := 9, blocks := [0] },
          { uuid := 5, blocks := [1] }] (some [(9, 0)])) = some 0 ∧
      lookupUuid 5
        (_update_leaf_functions [] [{ uuid := 9, blocks := [0] },
          { uuid := 5, blocks := [1] }] (some [(9, 0)])) = some 1 := by
  constructor
  · exact (update_leaf_functions_spec [] [{ uuid := 9, blocks := [0] },
      { uuid := 5, blocks := [1] }] (some [(9, 0)])).1 9 0 (by decide)
  · have h := (update_leaf_functions_spec [] [{ uuid := 9, blocks := [0] },
      { uuid := 5, blocks := [1] }] (some [(9, 0)])).2.2
      { uuid := 5, blocks := [1] } (by decide) (by decide) (by decide)
    simpa using h

/-! Frame and characterisation lemmas for the phases of
`_modify_block_insert_cfg`. -/

theorem truncateAndExtend_modCfg {block lastB : BlockId} {offset rl orig : Int}
    {s : CfgState} :
    (truncateAndExtend block lastB offset rl orig s).modCfg = s.modCfg := rfl

theorem truncateAndExtend_newCfg {block lastB : BlockId} {offset rl orig : Int}
    {s : CfgState} :
    (truncateAndExtend block lastB offset rl orig s).newCfg = s.newCfg := rfl

theorem truncateAndExtend_newBlocks {block lastB : BlockId} {offset rl orig : Int}
    {s : CfgState} :
    (truncateAndExtend block lastB offset rl orig s).newBlocks = s.newBlocks := rfl

theorem truncateAndExtend_newSymbols {block lastB : BlockId} {offset rl orig : Int}
    {s : CfgState} :
    (truncateAndExtend block lastB offset rl orig s).newSymbols = s.newSymbols := rfl

theorem truncateAndExtend_blocks_other {block lastB b : BlockId}
    {offset rl orig : Int} {s : CfgState} (hb : b ≠ block) (hl : b ≠ lastB) :
    (truncateAndExtend block lastB offset rl orig s).blocks b = s.blocks b := by
  unfold truncateAndExtend
  simp only [setBlk]
  rw [if_neg hl, if_neg hb]

theorem truncateAndExtend_blocks_block {block lastB : BlockId}
    {offset rl orig : Int} {s : CfgState} (h : lastB ≠ block) :
    (truncateAndExtend block lastB offset rl orig s).blocks block =
      { s.blocks block with size := offset } := by
  unfold truncateAndExtend
  simp only [setBlk]
  rw [if_neg (fun he : block = lastB => h he.symm)]
  simp

theorem truncateAndExtend_blocks_last {block lastB : BlockId}
    {offset rl orig : Int} {s : CfgState} (h : lastB ≠ block) :
    (truncateAndExtend block lastB offset rl orig s).blocks lastB =
      { s.blocks lastB with
        size := (s.blocks lastB).size + (orig - offset - rl) } := by
  unfold truncateAndExtend
  simp only [setBlk]
  simp [h]

theorem addFallthroughEdge_blocks {block first : BlockId} {iae : Bool}
    {s : CfgState} :
    (addFallthroughEdge block first iae s).blocks = s.blocks := by
  unfold addFallthroughEdge
  split <;> rfl

theorem addFallthroughEdge_modCfg {block first : BlockId} {iae : Bool}
    {s : CfgState} :
    (addFallthroughEdge block first iae s).modCfg = s.modCfg := by
  unfold addFallthroughEdge
  split <;> rfl

theorem addFallthroughEdge_newBlocks {block first : BlockId} {iae : Bool}
    {s : CfgState} :
    (addFallthroughEdge block first iae s).newBlocks = s.newBlocks := by
  unfold addFallthroughEdge
  split <;> rfl

theorem addFallthroughEdge_newSymbols {block first : BlockId} {iae : Bool}
    {s : CfgState} :
    (addFallthroughEdge block first iae s).newSymbols = s.newSymbols := by
  unfold addFallthroughEdge
  split <;> rfl

theorem addFallthroughEdge_newCfg_mem {block first : BlockId} {iae : Bool}
    {s : CfgState} {e : Edge} :
    e ∈ (addFallthroughEdge block first iae s).newCfg ↔
      e ∈ s.newCfg ∨
        ((!iae || (s.modCfg.outEdges block).any (fun x => _is_fallthrough_edge x)) = true ∧
          e = { source := block, target := first, label := some EdgeType.fallthrough }) := by
  unfold addFallthroughEdge
  split
  · rename_i hc
    simp only [Cfg.mem_add, hc, true_and]
  · rename_i hc
    simp only [Bool.not_eq_true] at hc
    simp [hc]

theorem redirectStep_eq {iae rli : Bool} {lastB : BlockId} {s : CfgState}
    {e : Edge} :
    redirectStep iae rli lastB s e =
      { s with
        modCfg := if discardsEdge iae rli e then s.modCfg.discard e else s.modCfg,
        newCfg :=
          if movesEdge iae rli e then s.newCfg.add { e with source := lastB }
          else s.newCfg } := by
  unfold redirectStep discardsEdge movesEdge
  cases iae <;> cases rli <;> cases hft : _is_fallthrough_edge e <;> simp [hft]

theorem redirect_foldl_blocks {iae rli : Bool} {lastB : BlockId}
    (L : List Edge) (s : CfgState) :
    ((L.foldl (redirectStep iae rli lastB)) s).blocks = s.blocks := by
  induction L generalizing s with
  | nil => rfl
  | cons x L ih =>
    simp only [List.foldl_cons, ih, redirectStep_eq]

theorem redirect_foldl_newBlocks {iae rli : Bool} {lastB : BlockId}
    (L : List Edge) (s : CfgState) :
    ((L.foldl (redirectStep iae rli lastB)) s).newBlocks = s.newBlocks := by
  induction L generalizing s with
  | nil => rfl
  | cons x L ih =>
    simp only [List.foldl_cons, ih, redirectStep_eq]

theorem redirect_foldl_newSymbols {iae rli : Bool} {lastB : BlockId}
    (L : List Edge) (s : CfgState) :
    ((L.foldl (redirectStep iae rli lastB)) s).newSymbols = s.newSymbols := by
  induction L generalizing s with
  | nil => rfl
  | cons x L ih =>
    simp only [List.foldl_cons, ih, redirectStep_eq]

theorem redirect_foldl_modCfg_mem {iae rli : Bool} {lastB : BlockId}
    (L : List Edge) (s : CfgState) (e : Edge) :
    e ∈ ((L.foldl (redirectStep iae rli lastB)) s).modCfg ↔
      e ∈ s.modCfg ∧ (e ∈ L → discardsEdge iae rli e = false) := by
  induction L generalizing s with
  | nil => simp
  | cons x L ih =>
    simp only [List.foldl_cons, ih, redirectStep_eq]
    by_cases hex : e = x
    · subst hex
      cases hd : discardsEdge iae rli e <;>
        simp [Cfg.mem_discard, hd, List.mem_cons]
    · cases hd : discardsEdge iae rli x <;>
        simp only [hd, if_true, if_false, Cfg.mem_discard, List.mem_cons] <;>
        constructor
      · rintro ⟨he, hL⟩
        exact ⟨he, fun hm => hL (hm.resolve_left hex)⟩
      · rintro ⟨he, hL⟩
        exact ⟨he, fun hm => hL (Or.inr hm)⟩
      · rintro ⟨⟨he, hne⟩, hL⟩
        exact ⟨he, fun hm => hL (hm.resolve_left hex)⟩
      · rintro ⟨he, hL⟩
        exact ⟨⟨he, hex⟩, fun hm => hL (Or.inr hm)⟩

theorem redirect_foldl_newCfg_mem {iae rli : Bool} {lastB : BlockId}
    (L : List Edge) (s : CfgState) (e : Edge) :
    e ∈ ((L.foldl (redirectStep iae rli lastB)) s).newCfg ↔
      e ∈ s.newCfg ∨
        ∃ x, x ∈ L ∧ movesEdge iae rli x = true ∧ e = { x with source := lastB } := by
  induction L generalizing s with
  | nil => simp
  | cons x L ih =>
    simp only [List.foldl_cons, ih, redirectStep_eq]
    cases hm : movesEdge iae rli x
    · simp only [if_false, Bool.false_eq_true, if_neg, not_false_iff,
        List.mem_cons]
      constructor
      · rintro (he | ⟨y, hy, hmy, hey⟩)
        · exact Or.inl he
        · exact Or.inr ⟨y, Or.inr hy, hmy, hey⟩
      · rintro (he | ⟨y, hy, hmy, hey⟩)
        · exact Or.inl he
        · rcases hy with rfl | hy
          · rw [hm] at hmy; cases hmy
          · exact Or.inr ⟨y, hy, hmy, hey⟩
    · simp only [if_true, Cfg.mem_add, List.mem_cons]
      constructor
      · rintro ((he | hee) | ⟨y, hy, hmy, hey⟩)
        · exact Or.inl he
        · exact Or.inr ⟨x, Or.inl rfl, hm, hee⟩
        · exact Or.inr ⟨y, Or.inr hy, hmy, hey⟩
      · rintro (he | ⟨y, hy, hmy, hey⟩)
        · exact Or.inl (Or.inl he)
        · rcases hy with rfl | hy
          · exact Or.inl (Or.inr hey)
          · exact Or.inr ⟨y, hy, hmy, hey⟩

theorem redirectOutgoing_blocks {block lastB : BlockId} {iae rli : Bool}
    {s : CfgState} :
    (redirectOutgoing block lastB iae rli s).blocks = s.blocks :=
  redirect_foldl_blocks _ s

theorem redirectOutgoing_newBlocks {block lastB : BlockId} {iae rli : Bool}
    {s : CfgState} :
    (redirectOutgoing block lastB iae rli s).newBlocks = s.newBlocks :=
  redirect_foldl_newBlocks _ s

theorem redirectOutgoing_newSymbols {block lastB : BlockId} {iae rli : Bool}
    {s : CfgState} :
    (redirectOutgoing block lastB iae rli s).newSymbols = s.newSymbols :=
  redirect_foldl_newSymbols _ s

theorem redirectOutgoing_modCfg_mem {block lastB : BlockId} {iae rli : Bool}
    {s : CfgState} {e : Edge} :
    e ∈ (redirectOutgoing block lastB iae rli s).modCfg ↔
      e ∈ s.modCfg ∧ (e.source = block → discardsEdge iae rli e = false) := by
  unfold redirectOutgoing
  rw [redirect_foldl_modCfg_mem]
  constructor
  · rintro ⟨he, hL⟩
    refine ⟨he, fun hsrc => hL ?_⟩
    rw [List.mem_dedup, Cfg.mem_outEdges]
    exact ⟨he, hsrc⟩
  · rintro ⟨he, hL⟩
    refine ⟨he, fun hm => ?_⟩
    rw [List.mem_dedup, Cfg.mem_outEdges] at hm
    exact hL hm.2

theorem redirectOutgoing_newCfg_mem {block lastB : BlockId} {iae rli : Bool}
    {s : CfgState} {e : Edge} :
    e ∈ (redirectOutgoing block lastB iae rli s).newCfg ↔
      e ∈ s.newCfg ∨
        ∃ x, x ∈ s.modCfg ∧ x.source = block ∧ movesEdge iae rli x = true ∧
          e = { x with source := lastB } := by
  unfold redirectOutgoing
  rw [redirect_foldl_newCfg_mem]
  constructor
  · rintro (he | ⟨x, hx, hmx, hex⟩)
    · exact Or.inl he
    · rw [List.mem_dedup, Cfg.mem_outEdges] at hx
      exact Or.inr ⟨x, hx.1, hx.2, hmx, hex⟩
  · rintro (he | ⟨x, hx, hsrc, hmx, hex⟩)
    · exact Or.inl he
    · refine Or.inr ⟨x, ?_, hmx, hex⟩
      rw [List.mem_dedup, Cfg.mem_outEdges]
      exact ⟨hx, hsrc⟩

theorem headRepair_no_repair {block first : BlockId} {s : CfgState}
    (h : (s.blocks block).size ≠ 0) :
    headRepair block first s = Except.ok s := by
  unfold headRepair
  rw [if_neg h]

theorem tailRepair_no_repair_nil {s : CfgState} (h : s.newBlocks = []) :
    tailRepair s = Except.ok s := by
  unfold tailRepair
  rw [h]
  rfl

theorem tailRepair_no_repair {lastB : BlockId} {s : CfgState}
    (h : s.newBlocks.getLast? = some lastB) (hsz : (s.blocks lastB).size ≠ 0) :
    tailRepair s = Except.ok s := by
  unfold tailRepair
  rw [h]
  simp only [if_neg hsz]

theorem headRepair_ok_offsets {block first : BlockId} {s s4 : CfgState}
    (h : headRepair block first s = Except.ok s4) :
    ∀ b, (s4.blocks b).offset = (s.blocks b).offset := by
  unfold headRepair at h
  split at h
  · split at h
    · cases h
    · rename_i added heq
      injection h with h
      subst h
      intro b
      by_cases hb : b = block
      · subst hb
        simp [setBlk]
      · simp [setBlk, hb]
  · injection h with h
    subst h
    intro b
    rfl

theorem tailRepair_ok_blocks {s s4 : CfgState}
    (h : tailRepair s = Except.ok s4) : s4.blocks = s.blocks := by
  unfold tailRepair at h
  split at h
  · injection h with h
    subst h
    rfl
  · split at h
    · dsimp only at h
      split at h
      · injection h with h
        subst h
        rfl
      · split at h
        · injection h with h
          subst h
          rfl
        · cases h
    · injection h with h
      subst h
      rfl

theorem truncateAndExtend_offsets {block lastB : BlockId} {offset rl orig : Int}
    {s : CfgState} (b : BlockId) :
    ((truncateAndExtend block lastB offset rl orig s).blocks b).offset =
      (s.blocks b).offset := by
  unfold truncateAndExtend
  simp only [setBlk]
  split_ifs <;> simp_all

theorem cfg_ok_offsets {block : BlockId} {offset rl nbLen : Int} {s cs : CfgState}
    (h : _modify_block_insert_cfg block offset rl nbLen s = Except.ok cs) :
    ∀ b, (cs.blocks b).offset = (s.blocks b).offset := by
  unfold _modify_block_insert_cfg at h
  split at h
  · dsimp only at h
    split at h
    · injection h with h
      subst h
      intro b
      by_cases hb : b = block
      · subst hb
        simp [setBlk]
      · simp [setBlk, hb]
    · cases h
  · dsimp only at h
    split at h
    · injection h with h
      subst h
      intro b
      by_cases hb : b = block
      · subst hb
        simp [setBlk]
      · simp [setBlk, hb]
    · split at h
      · cases h
      · rename_i s4 heq4
        have h1 := tailRepair_ok_blocks h
        have h2 := headRepair_ok_offsets heq4
        intro b
        rw [h1, h2]
        rw [redirectOutgoing_blocks, addFallthroughEdge_blocks,
          truncateAndExtend_offsets]

theorem modify_ok_elim {block : BlockId} {offset rl : Int} {newBytes : List Nat}
    {newBlocks : List BlockId} {newCfg : Cfg} {newSymExprs : List (Int × Nat)}
    {newSymbols : List GSymbol} {st : EngineState} {st' : EngineState}
    (h : _modify_block_insert block offset rl newBytes newBlocks newCfg
      newSymExprs newSymbols st = Except.ok st') :
    spliceAsserts block offset rl newBytes newBlocks newCfg st ∧
      ∃ cs, _modify_block_insert_cfg block offset rl (newBytes.length : Int)
          { blocks := st.blocks, modCfg := st.modCfg, newBlocks := newBlocks,
            newCfg := newCfg, newSymbols := newSymbols } = Except.ok cs ∧
        st' = spliceFinalize block offset rl newBytes newSymExprs st cs := by
  unfold _modify_block_insert at h
  split at h
  · rename_i hA
    split at h
    · cases h
    · rename_i cs hcs
      dsimp only at h
      split at h
      · injection h with h
        exact ⟨hA, cs, hcs, h.symm⟩
      · cases h
  · cases h

/-- C2: on successful return of `_modify_block_insert`, the byte
interval contents equal `old[:p] ++ new_bytes ++
old[p + replacement_length:]` with `p = block.offset + offset`, and
the byte interval size has grown by
`size_delta = len(new_bytes) - replacement_length`. -/
theorem splice_contents_spec {block : BlockId} {offset rl : Int}
    {newBytes : List Nat} {newBlocks : List BlockId} {newCfg : Cfg}
    {newSymExprs : List (Int × Nat)} {newSymbols : List GSymbol}
    {st st' : EngineState}
    (h : _modify_block_insert block offset rl newBytes newBlocks newCfg
      newSymExprs newSymbols st = Except.ok st') :
    st'.biContents =
        pyTake ((st.blocks block).offset + offset) st.biContents ++ newBytes ++
          pyDrop ((st.blocks block).offset + offset + rl) st.biContents ∧
      st'.biSize = st.biSize + ((newBytes.length : Int) - rl) := by
  obtain ⟨hA, cs, hcs, hst⟩ := modify_ok_elim h
  subst hst
  have hoff := cfg_ok_offsets hcs block
  unfold spliceFinalize
  dsimp only
  rw [hoff]
  dsimp only
  rw [Int.add_comm offset ((st.blocks block).offset)]
  exact ⟨rfl, rfl⟩

/-- C2 witness: splicing two bytes at offset 4 of a ten-byte block. -/
theorem splice_contents_spec_witness :
    ∃ st', _modify_block_insert 0 4 0 [170, 187] [1] [] [] [] sampleEngineState =
        Except.ok st' ∧
      st'.biContents = [0, 1, 2, 3, 170, 187, 4, 5, 6, 7, 8, 9] ∧
      st'.biSize = 12 := by
  have hex : ∃ x, _modify_block_insert 0 4 0 [170, 187] [1] [] [] []
      sampleEngineState = Except.ok x := ⟨_, rfl⟩
  cases hrun : _modify_block_insert 0 4 0 [170, 187] [1] [] [] []
      sampleEngineState with
  | error e =>
    rw [hrun] at hex
    obtain ⟨x, hx⟩ := hex
    cases hx
  | ok st' =>
    have hc := splice_contents_spec hrun
    refine ⟨st', rfl, ?_, ?_⟩
    · rw [hc.1]
      rfl
    · rw [hc.2]
      rfl

/-! The key-rewrite policy of the displacement-map comprehension. -/

theorem alookup_shiftDisplacementMap {p rl nbLen : Int} (hrl : 0 ≤ rl)
    (hnb : 0 ≤ nbLen) (m : List (Int × Nat)) (d : Int) :
    alookup d (shiftDisplacementMap p rl nbLen m) =
      if d < p then alookup d m
      else if d < p + nbLen then none
      else alookup (d - (nbLen - rl)) m := by
  induction m with
  | nil =>
    simp only [shiftDisplacementMap, List.filter_nil, List.map_nil]
    split_ifs <;> rfl
  | cons kv m ih =>
    by_cases hkeep : kv.1 < p ∨ p + rl ≤ kv.1
    · have hstep : shiftDisplacementMap p rl nbLen (kv :: m) =
          (if p ≤ kv.1 then kv.1 + (nbLen - rl) else kv.1, kv.2) ::
            shiftDisplacementMap p rl nbLen m := by
        simp only [shiftDisplacementMap, List.filter_cons]
        rw [if_pos (by simpa using hkeep)]
        simp
      rw [hstep]
      by_cases hhi : p ≤ kv.1
      · have hkv : p + rl ≤ kv.1 := by
          rcases hkeep with hk | hk
          · omega
          · exact hk
        simp only [alookup, if_pos hhi]
        by_cases hd1 : d < p
        · simp only [if_pos hd1,
            if_neg (show ¬ kv.1 + (nbLen - rl) = d by omega), ih,
            if_neg (show ¬ kv.1 = d by omega)]
        · simp only [if_neg hd1]
          by_cases hd2 : d < p + nbLen
          · simp only [if_pos hd2,
              if_neg (show ¬ kv.1 + (nbLen - rl) = d by omega), ih,
              if_neg hd1]
          · simp only [if_neg hd2]
            by_cases heq : kv.1 + (nbLen - rl) = d
            · simp only [if_pos heq,
                if_pos (show kv.1 = d - (nbLen - rl) by omega)]
            · simp only [if_neg heq, ih, if_neg hd1, if_neg hd2,
                if_neg (show ¬ kv.1 = d - (nbLen - rl) by omega)]
      · have hlo : kv.1 < p := by
          rcases hkeep with hk | hk
          · exact hk
          · omega
        simp only [alookup, if_neg hhi]
        by_cases hd1 : d < p
        · by_cases heq : kv.1 = d
          · simp only [if_pos heq, if_pos hd1, if_pos heq]
          · simp only [if_neg heq, ih, if_pos hd1]
        · simp only [if_neg hd1, if_neg (show ¬ kv.1 = d by omega), ih]
          by_cases hd2 : d < p + nbLen
          · simp only [if_pos hd2]
          · simp only [if_neg hd2,
              if_neg (show ¬ kv.1 = d - (nbLen - rl) by omega)]
    · have hstep : shiftDisplacementMap p rl nbLen (kv :: m) =
          shiftDisplacementMap p rl nbLen m := by
        simp only [shiftDisplacementMap, List.filter_cons]
        rw [if_neg (by simpa using hkeep)]
      push_neg at hkeep
      rw [hstep, ih]
      by_cases hd1 : d < p
      · simp only [if_pos hd1, alookup, if_neg (show ¬ kv.1 = d by omega)]
      · simp only [if_neg hd1]
        by_cases hd2 : d < p + nbLen
        · simp only [if_pos hd2]
        · simp only [if_neg hd2, alookup,
            if_neg (show ¬ kv.1 = d - (nbLen - rl) by omega)]

theorem shiftKey_inj {p rl nbLen : Int} (hrl : 0 ≤ rl) (hnb : 0 ≤ nbLen)
    {a b : Int} (ha : a < p ∨ p + rl ≤ a) (hb : b < p ∨ p + rl ≤ b)
    (h : (if p ≤ a then a + (nbLen - rl) else a) =
      (if p ≤ b then b + (nbLen - rl) else b)) : a = b := by
  rcases ha with ha | ha <;> rcases hb with hb | hb <;> split_ifs at h <;> omega

theorem shiftDisplacementMap_keys_nodup {p rl nbLen : Int} (hrl : 0 ≤ rl)
    (hnb : 0 ≤ nbLen) {m : List (Int × Nat)} (hm : (m.map Prod.fst).Nodup) :
    ((shiftDisplacementMap p rl nbLen m).map Prod.fst).Nodup := by
  induction m with
  | nil => simp [shiftDisplacementMap]
  | cons kv m ih =>
    simp only [List.map_cons, List.nodup_cons] at hm
    by_cases hkeep : kv.1 < p ∨ p + rl ≤ kv.1
    · have hstep : shiftDisplacementMap p rl nbLen (kv :: m) =
          (if p ≤ kv.1 then kv.1 + (nbLen - rl) else kv.1, kv.2) ::
            shiftDisplacementMap p rl nbLen m := by
        simp only [shiftDisplacementMap, List.filter_cons]
        rw [if_pos (by simpa using hkeep)]
        simp
      rw [hstep]
      simp only [List.map_cons, List.nodup_cons]
      refine ⟨?_, ih hm.2⟩
      intro hmem
      simp only [shiftDisplacementMap, List.map_map, List.mem_map,
        List.mem_filter] at hmem
      obtain ⟨kv', ⟨hkv'm, hkv'c⟩, hkey⟩ := hmem
      have hc' : kv'.1 < p ∨ p + rl ≤ kv'.1 := by simpa using hkv'c
      have : kv.1 = kv'.1 := by
        apply shiftKey_inj hrl hnb hkeep hc'
        simpa using hkey.symm
      exact hm.1 (this ▸ List.mem_map_of_mem Prod.fst hkv'm)
    · have hstep : shiftDisplacementMap p rl nbLen (kv :: m) =
          shiftDisplacementMap p rl nbLen m := by
        simp only [shiftDisplacementMap, List.filter_cons]
        rw [if_neg (by simpa using hkeep)]
      rw [hstep]
      exact ih hm.2

theorem elookup_delElem_same {m : OffsetMapping} {elem : Nat} :
    elookup elem (m.delElem elem) = none := by
  induction m with
  | nil => rfl
  | cons kv rest ih =>
    unfold OffsetMapping.delElem at ih ⊢
    simp only [List.filter_cons]
    by_cases h : kv.1 = elem
    · rw [if_neg (by simp [h])]
      exact ih
    · rw [if_pos (by simp [h])]
      simp only [elookup, if_neg h]
      exact ih

theorem elookup_delElem_other {m : OffsetMapping} {elem e : Nat}
    (hne : e ≠ elem) : elookup e (m.delElem elem) = elookup e m := by
  induction m with
  | nil => rfl
  | cons kv rest ih =>
    unfold OffsetMapping.delElem at ih ⊢
    simp only [List.filter_cons]
    by_cases h : kv.1 = elem
    · rw [if_neg (by simp [h])]
      rw [ih]
      simp only [elookup, if_neg (fun he : kv.1 = e => hne (he ▸ h))]
    · rw [if_pos (by simp [h])]
      simp only [elookup]
      by_cases h2 : kv.1 = e
      · simp [h2]
      · simp only [if_neg h2]
        exact ih

theorem update_aux_policy {p rl nbLen : Int} (hrl : 0 ≤ rl) (hnb : 0 ≤ nbLen)
    (biElem : Nat) (t : Option AuxTable) :
    auxTableRewritten p rl nbLen biElem t
      (update_aux_data_keyed_by_offset p rl nbLen biElem t) := by
  constructor
  · intro ht
    subst ht
    rfl
  · intro table ht
    subst ht
    unfold update_aux_data_keyed_by_offset
    dsimp only
    have hflag : (if table.isOffsetMapping then table
        else { table with isOffsetMapping := true }).isOffsetMapping = true := by
      split
      · assumption
      · rfl
    have hdata : (if table.isOffsetMapping then table
        else { table with isOffsetMapping := true }).data = table.data := by
      split <;> rfl
    rw [hdata]
    cases helk : elookup biElem table.data with
    | none =>
      refine ⟨_, rfl, hflag, fun e _ => by rw [hdata], fun _ => by
        rw [hdata]; exact helk, fun dm hdm => nomatch hdm⟩
    | some dm0 =>
      refine ⟨_, rfl, hflag, ?_, ?_, ?_⟩
      · intro e hne
        rw [elookup_setElem_other hne, elookup_delElem_other hne]
      · intro habs
        exact Option.noConfusion habs
      · intro dm hdm hnd d
        injection hdm with hdd
        subst hdd
        unfold OffsetMapping.getOffset
        rw [elookup_setElem_same, elookup_delElem_same]
        have hkeys := @shiftDisplacementMap_keys_nodup p rl nbLen hrl hnb _ hnd
        change alookup d (List.foldl
          (fun (s : List (Int × Nat)) (kv : Int × Nat) => assocSet kv.1 kv.2 s)
          (Option.getD none []) _) = _
        rw [alookup_foldl_assocSet hkeys]
        rw [← alookup_shiftDisplacementMap hrl hnb _ d]
        cases halt : alookup d (shiftDisplacementMap p rl nbLen dm0) with
        | some v => rfl
        | none => rfl

theorem alookup_foldl_assocSet_shift {L : List (Int × Nat)}
    (hnd : (L.map Prod.fst).Nodup) (p k : Int) (m0 : List (Int × Nat)) :
    alookup k (L.foldl (fun m kv => assocSet (p + kv.1) kv.2 m) m0) =
      match alookup (k - p) L with
      | some v => some v
      | none => alookup k m0 := by
  induction L generalizing m0 with
  | nil => simp [alookup]
  | cons kv rest ih =>
    simp only [List.map_cons, List.nodup_cons] at hnd
    simp only [List.foldl_cons, ih hnd.2]
    by_cases h1 : kv.1 = k - p
    · rw [alookup_eq_none_of_not_mem (h1 ▸ hnd.1)]
      simp only [alookup, if_pos h1, alookup_assocSet,
        if_pos (show p + kv.1 = k by omega)]
    · simp only [alookup, if_neg h1]
      cases halt : alookup (k - p) rest with
      | some v => simp
      | none =>
        simp [alookup_assocSet, show ¬ p + kv.1 = k by omega]

/-- C6: on successful return of `_modify_block_insert`, with
`p = block.offset + offset`, the byte interval's symbolic expressions
follow the key policy (`k < p` preserved, `[p, p +
replacement_length)` removed, `k ≥ p + replacement_length` shifted by
`size_delta`, and each fragment expression `(rel, expr)` inserted at
`p + rel`, the insertions taking precedence), and each of the three
offset-keyed aux tables (`comments`, `padding`,
`symbolicExpressionSizes`) is rewritten by the same policy confined to
this byte interval's element (other elements untouched, the table
upgraded to an `OffsetMapping` first). -/
theorem splice_symexprs_aux_spec {block : BlockId} {offset rl : Int}
    {newBytes : List Nat} {newBlocks : List BlockId} {newCfg : Cfg}
    {newSymExprs : List (Int × Nat)} {newSymbols : List GSymbol}
    {st st' : EngineState}
    (h : _modify_block_insert block offset rl newBytes newBlocks newCfg
      newSymExprs newSymbols st = Except.ok st')
    (hnse : (newSymExprs.map Prod.fst).Nodup) :
    (∀ k : Int, alookup k st'.biSymExprs =
        match alookup (k - ((st.blocks block).offset + offset)) newSymExprs with
        | some v => some v
        | none =>
          if k < (st.blocks block).offset + offset then alookup k st.biSymExprs
          else if k < (st.blocks block).offset + offset + (newBytes.length : Int)
            then none
          else alookup (k - ((newBytes.length : Int) - rl)) st.biSymExprs) ∧
      auxTableRewritten ((st.blocks block).offset + offset) rl
        (newBytes.length : Int) st.biElem st.auxComments st'.auxComments ∧
      auxTableRewritten ((st.blocks block).offset + offset) rl
        (newBytes.length : Int) st.biElem st.auxPadding st'.auxPadding ∧
      auxTableRewritten ((st.blocks block).offset + offset) rl
        (newBytes.length : Int) st.biElem st.auxSymExprSizes
        st'.auxSymExprSizes := by
  obtain ⟨hA, cs, hcs, hst⟩ := modify_ok_elim h
  have hrl : 0 ≤ rl := hA.2.2.2.2.2.1
  have hnb : (0 : Int) ≤ (newBytes.length : Int) := by positivity
  subst hst
  have hoff := cfg_ok_offsets hcs block
  unfold spliceFinalize
  dsimp only
  rw [hoff]
  dsimp only
  rw [Int.add_comm offset ((st.blocks block).offset)]
  refine ⟨?_, ?_, ?_, ?_⟩
  · intro k
    rw [alookup_foldl_assocSet_shift hnse]
    cases halt :
        alookup (k - ((st.blocks block).offset + offset)) newSymExprs with
    | some v => rfl
    | none =>
      exact alookup_shiftDisplacementMap hrl hnb st.biSymExprs k
  · exact update_aux_policy hrl hnb _ _
  · exact update_aux_policy hrl hnb _ _
  · exact update_aux_policy hrl hnb _ _

/-- C6 witness: in a concrete splice of two bytes at `p = 4`, the
symbolic expression keyed at 6 moves to 8, and the `comments` aux
entry of the byte interval keyed at 6 moves to 8 in a table upgraded
to an offset mapping. -/
theorem splice_symexprs_aux_spec_witness :
    ∃ st' table',
      _modify_block_insert 0 4 0 [170, 187] [1] [] [] [] sampleEngineState =
          Except.ok st' ∧
        alookup 8 st'.biSymExprs = some 55 ∧
        st'.auxComments = some table' ∧
        table'.isOffsetMapping = true ∧
        OffsetMapping.getOffset table'.data 100 8 = some 77 := by
  have hex : ∃ x, _modify_block_insert 0 4 0 [170, 187] [1] [] [] []
      sampleEngineState = Except.ok x := ⟨_, rfl⟩
  cases hrun : _modify_block_insert 0 4 0 [170, 187] [1] [] [] []
      sampleEngineState with
  | error e =>
    rw [hrun] at hex
    obtain ⟨x, hx⟩ := hex
    cases hx
  | ok st' =>
    have hc := splice_symexprs_aux_spec hrun (by decide)
    obtain ⟨hexprs, hcomments, _, _⟩ := hc
    obtain ⟨table', ht', hflag, hother, hbnone, hdm⟩ :=
      hcomments.2 { isOffsetMapping := false, data := [(100, [(6, 77)])] } rfl
    refine ⟨st', table', rfl, ?_, ht', hflag, ?_⟩
    · have hk := hexprs 8
      simpa using hk
    · have hd := hdm [(6, 77)] rfl (by decide) 8
      simpa using hd

/-! List helpers about last elements, used by the zero-size repair
analysis. -/

theorem getLast?_mem_of_eq {α : Type} {l : List α} {x : α}
    (h : l.getLast? = some x) : x ∈ l := by
  induction l generalizing x with
  | nil => cases h
  | cons a l ih =>
    cases l with
    | nil =>
      simp only [List.getLast?_singleton] at h
      injection h with h
      simp [h]
    | cons c l' =>
      rw [List.getLast?_cons_cons] at h
      exact List.mem_cons_of_mem a (ih h)

theorem mem_dropLast_or_last {α : Type} {l : List α} {x b : α}
    (h : l.getLast? = some x) (hb : b ∈ l) : b ∈ l.dropLast ∨ b = x := by
  induction l generalizing x with
  | nil => cases hb
  | cons a l ih =>
    cases l with
    | nil =>
      simp only [List.getLast?_singleton] at h
      injection h with h
      rcases List.mem_singleton.mp hb with rfl
      exact Or.inr h
    | cons c l' =>
      rw [List.getLast?_cons_cons] at h
      rcases List.mem_cons.mp hb with rfl | hb'
      · exact Or.inl (by simp [List.dropLast_cons₂])
      · rcases ih h hb' with hd | rfl
        · exact Or.inl (by simp [List.dropLast_cons₂, hd])
        · exact Or.inr rfl

theorem last_not_mem_dropLast {α : Type} {l : List α} {x : α}
    (hnd : l.Nodup) (h : l.getLast? = some x) : x ∉ l.dropLast := by
  induction l generalizing x with
  | nil => cases h
  | cons a l ih =>
    cases l with
    | nil => simp
    | cons c l' =>
      rw [List.getLast?_cons_cons] at h
      rw [List.nodup_cons] at hnd
      intro hmem
      rw [List.dropLast_cons₂] at hmem
      rcases List.mem_cons.mp hmem with rfl | hmem'
      · exact hnd.1 (getLast?_mem_of_eq h)
      · exact ih hnd.2 h hmem'

theorem getLast?_cons_getLastD {α : Type} (a d : α) (l : List α) :
    (a :: l).getLast? = some ((a :: l).getLastD d) := by
  induction l generalizing a d with
  | nil => rfl
  | cons b l ih =>
    rw [List.getLast?_cons_cons, List.getLastD_cons, List.getLastD_cons]
    have := ih b a
    rw [List.getLastD_cons] at this
    exact this

theorem headRepair_ok_cases {block first : BlockId} {s s4 : CfgState}
    (h : headRepair block first s = Except.ok s4) :
    ((s.blocks block).size ≠ 0 ∧ s4 = s) ∨
      ((s.blocks block).size = 0 ∧
        s4.blocks =
          setBlk s.blocks block
            { s.blocks block with size := (s.blocks first).size } ∧
        s4.newBlocks = s.newBlocks.tail) := by
  unfold headRepair at h
  split at h
  · rename_i hz
    split at h
    · cases h
    · injection h with h
      subst h
      exact Or.inr ⟨hz, rfl, rfl⟩
  · rename_i hz
    injection h with h
    subst h
    exact Or.inl ⟨hz, rfl⟩

theorem tailRepair_ok_newBlocks {s s4 : CfgState}
    (h : tailRepair s = Except.ok s4) :
    (s4.newBlocks = s.newBlocks ∧
        ∀ lastB ∈ s.newBlocks.getLast?.toList, (s.blocks lastB).size ≠ 0) ∨
      s4.newBlocks = s.newBlocks.dropLast := by
  unfold tailRepair at h
  split at h
  · rename_i hnone
    injection h with h
    subst h
    refine Or.inl ⟨rfl, ?_⟩
    intro lastB hlast
    rw [hnone] at hlast
    cases hlast
  · rename_i lastB hsome
    split at h
    · dsimp only at h
      split at h
      · injection h with h
        subst h
        exact Or.inr rfl
      · split at h
        · injection h with h
          subst h
          exact Or.inr rfl
        · cases h
    · rename_i hsz
      injection h with h
      subst h
      refine Or.inl ⟨rfl, ?_⟩
      intro lb hlb
      rw [hsome] at hlb
      simp only [Option.toList_some, List.mem_singleton] at hlb
      subst hlb
      exact hsz

theorem pipeline_blocks {block first lastB : BlockId} {offset rl orig : Int}
    {iae rli : Bool} {s : CfgState} (hlneb : lastB ≠ block) :
    (redirectOutgoing block lastB iae rli
        (addFallthroughEdge block first iae
          (truncateAndExtend block lastB offset rl orig s))).blocks =
      setBlk (setBlk s.blocks block { s.blocks block with size := offset }) lastB
        { s.blocks lastB with
          size := (s.blocks lastB).size + (orig - offset - rl) } := by
  rw [redirectOutgoing_blocks, addFallthroughEdge_blocks]
  unfold truncateAndExtend
  dsimp only
  rw [setBlk_other hlneb]

theorem pipeline_newBlocks {block first lastB : BlockId} {offset rl orig : Int}
    {iae rli : Bool} {s : CfgState} :
    (redirectOutgoing block lastB iae rli
        (addFallthroughEdge block first iae
          (truncateAndExtend block lastB offset rl orig s))).newBlocks =
      s.newBlocks := by
  rw [redirectOutgoing_newBlocks, addFallthroughEdge_newBlocks,
    truncateAndExtend_newBlocks]

theorem pipeline_newSymbols {block first lastB : BlockId} {offset rl orig : Int}
    {iae rli : Bool} {s : CfgState} :
    (redirectOutgoing block lastB iae rli
        (addFallthroughEdge block first iae
          (truncateAndExtend block lastB offset rl orig s))).newSymbols =
      s.newSymbols := by
  rw [redirectOutgoing_newSymbols, addFallthroughEdge_newSymbols,
    truncateAndExtend_newSymbols]

theorem getLast?_cons_of_ne_nil {α : Type} {l : List α} (h : l ≠ []) (a : α) :
    (a :: l).getLast? = l.getLast? := by
  cases l with
  | nil => exact absurd rfl h
  | cons c l' => rw [List.getLast?_cons_cons]

theorem cfg_ok_sizes {block : BlockId} {offset rl nbLen : Int} {s cs : CfgState}
    (h : _modify_block_insert_cfg block offset rl nbLen s = Except.ok cs)
    (hsz : 1 ≤ (s.blocks block).size)
    (hoff0 : 0 ≤ offset)
    (hrl : 0 ≤ rl) (hrlle : offset + rl ≤ (s.blocks block).size)
    (hnbLen : 1 ≤ nbLen)
    (hnodup : s.newBlocks.Nodup)
    (hblockni : block ∉ s.newBlocks)
    (hfirst : ∀ b ∈ s.newBlocks.take 1, 1 ≤ (s.blocks b).size)
    (hmid : ∀ b ∈ s.newBlocks.dropLast, 1 ≤ (s.blocks b).size)
    (hnn : ∀ b ∈ s.newBlocks, 0 ≤ (s.blocks b).size) :
    1 ≤ (cs.blocks block).size ∧
      (∀ b ∈ cs.newBlocks, 1 ≤ (cs.blocks b).size) ∧
      (∀ b, b ≠ block → b ∉ s.newBlocks → cs.blocks b = s.blocks b) ∧
      (∀ b ∈ cs.newBlocks, b ∈ s.newBlocks) := by
  have hE : 0 ≤ (s.blocks block).size - offset - rl := by omega
  unfold _modify_block_insert_cfg at h
  split at h
  · -- new_blocks is empty: only the trivial branch can return ok
    dsimp only at h
    split at h
    · injection h with h
      subst h
      refine ⟨?_, ?_, ?_, ?_⟩
      · dsimp only
        rw [setBlk_same]
        dsimp only
        omega
      · intro b hb
        dsimp only at hb
        cases hb
      · intro b hb _
        dsimp only
        exact setBlk_other hb
      · intro b hb
        dsimp only at hb
        cases hb
    · cases h
  · rename_i first rest heq
    dsimp only at h
    split at h
    · -- trivial branch
      injection h with h
      subst h
      refine ⟨?_, ?_, ?_, ?_⟩
      · dsimp only
        rw [setBlk_same]
        dsimp only
        omega
      · intro b hb
        dsimp only at hb
        cases hb
      · intro b hb _
        dsimp only
        exact setBlk_other hb
      · intro b hb
        dsimp only at hb
        cases hb
    · -- general branch
      split at h
      · cases h
      · rename_i s4 heq4
        have hlastq : s.newBlocks.getLast? =
            some (List.getLastD (first :: rest) first) := by
          rw [heq]
          exact getLast?_cons_getLastD first first rest
        have hlmem : List.getLastD (first :: rest) first ∈ s.newBlocks :=
          getLast?_mem_of_eq hlastq
        have hlneb : List.getLastD (first :: rest) first ≠ block :=
          fun he => hblockni (he ▸ hlmem)
        have hbnel : block ≠ List.getLastD (first :: rest) first :=
          fun he => hlneb he.symm
        have hfmem : first ∈ s.newBlocks := by
          rw [heq]
          exact List.mem_cons_self first rest
        have hfneb : first ≠ block := fun he => hblockni (he ▸ hfmem)
        have hfirstsz : 1 ≤ (s.blocks first).size := by
          refine hfirst first ?_
          rw [heq]
          simp
        rcases headRepair_ok_cases heq4 with ⟨hz, rfl⟩ | ⟨hz, hblocks4, hnb4⟩
        · -- no head repair: block kept size = offset
          rw [pipeline_blocks hlneb] at hz
          rw [setBlk_other hbnel, setBlk_same] at hz
          dsimp only at hz
          have hcsblocks := tailRepair_ok_blocks h
          rw [pipeline_blocks hlneb] at hcsblocks
          rcases tailRepair_ok_newBlocks h with ⟨hkeep, hlastnz⟩ | hdrop
          · rw [pipeline_newBlocks] at hkeep
            rw [pipeline_newBlocks] at hlastnz
            have hlastsz : 1 ≤
                (s.blocks (List.getLastD (first :: rest) first)).size +
                  ((s.blocks block).size - offset - rl) := by
              have h1 := hlastnz (List.getLastD (first :: rest) first)
                (by rw [hlastq]; simp)
              rw [pipeline_blocks hlneb, setBlk_same] at h1
              dsimp only at h1
              have h2 := hnn _ hlmem
              omega
            refine ⟨?_, ?_, ?_, ?_⟩
            · rw [hcsblocks, setBlk_other hbnel, setBlk_same]
              dsimp only
              omega
            · intro b hb
              rw [hkeep] at hb
              rw [hcsblocks]
              by_cases hbl : b = List.getLastD (first :: rest) first
              · subst hbl
                rw [setBlk_same]
                dsimp only
                exact hlastsz
              · have hbb : b ≠ block := fun he => hblockni (he ▸ hb)
                rw [setBlk_other hbl, setBlk_other hbb]
                rcases mem_dropLast_or_last hlastq hb with hd | hd
                · exact hmid b hd
                · exact absurd hd hbl
            · intro b hbne hbni
              rw [hcsblocks, setBlk_other (fun he => hbni (by rw [he]; exact hlmem)),
                setBlk_other hbne]
            · intro b hb
              rw [hkeep] at hb
              exact hb
          · rw [pipeline_newBlocks] at hdrop
            refine ⟨?_, ?_, ?_, ?_⟩
            · rw [hcsblocks, setBlk_other hbnel, setBlk_same]
              dsimp only
              omega
            · intro b hb
              rw [hdrop] at hb
              have hbmem : b ∈ s.newBlocks :=
                (List.dropLast_sublist s.newBlocks).subset hb
              have hbb : b ≠ block := fun he => hblockni (he ▸ hbmem)
              have hbl : b ≠ List.getLastD (first :: rest) first :=
                fun he => last_not_mem_dropLast hnodup hlastq (by rw [← he]; exact hb)
              rw [hcsblocks, setBlk_other hbl, setBlk_other hbb]
              exact hmid b hb
            · intro b hbne hbni
              rw [hcsblocks, setBlk_other (fun he => hbni (by rw [he]; exact hlmem)),
                setBlk_other hbne]
            · intro b hb
              rw [hdrop] at hb
              exact (List.dropLast_sublist s.newBlocks).subset hb
        · -- head repair: block absorbs the first patch block
          rw [pipeline_blocks hlneb] at hblocks4
          rw [pipeline_newBlocks, heq] at hnb4
          simp only [List.tail_cons] at hnb4
          have hcsblocks := tailRepair_ok_blocks h
          rw [hblocks4] at hcsblocks
          have hS3first : 1 ≤
              ((setBlk (setBlk s.blocks block
                  { s.blocks block with size := offset })
                (List.getLastD (first :: rest) first)
                { s.blocks (List.getLastD (first :: rest) first) with
                  size := (s.blocks (List.getLastD (first :: rest) first)).size +
                    ((s.blocks block).size - offset - rl) }) first).size := by
            by_cases hfl : first = List.getLastD (first :: rest) first
            · rw [← hfl, setBlk_same]
              dsimp only
              omega
            · rw [setBlk_other hfl, setBlk_other hfneb]
              exact hfirstsz
          refine ⟨?_, ?_, ?_, ?_⟩
          · rw [hcsblocks, setBlk_same]
            dsimp only
            exact hS3first
          · intro b hb
            have hbrest := hb
            rcases tailRepair_ok_newBlocks h with ⟨hkeep, hlastnz⟩ | hdrop
            · rw [hkeep, hnb4] at hb
              have hbmem : b ∈ s.newBlocks := by
                rw [heq]
                exact List.mem_cons_of_mem first hb
              have hbb : b ≠ block := fun he => hblockni (he ▸ hbmem)
              rw [hcsblocks, setBlk_other hbb]
              by_cases hbl : b = List.getLastD (first :: rest) first
              · subst hbl
                rw [setBlk_same]
                dsimp only
                have hrestne : rest ≠ [] := by
                  intro hre
                  rw [hre] at hb
                  cases hb
                have hrlast : rest.getLast? =
                    some (List.getLastD (first :: rest) first) := by
                  have h0 := hlastq
                  rw [heq, getLast?_cons_of_ne_nil hrestne] at h0
                  exact h0
                have h1 := hlastnz (List.getLastD (first :: rest) first)
                  (by rw [hnb4, hrlast]; simp)
                rw [hblocks4,
                  setBlk_other hlneb, setBlk_same] at h1
                dsimp only at h1
                have h2 := hnn _ hlmem
                omega
              · rw [setBlk_other hbl, setBlk_other hbb]
                rcases mem_dropLast_or_last hlastq hbmem with hd | hd
                · exact hmid b hd
                · exact absurd hd hbl
            · rw [hdrop, hnb4] at hb
              have hbrest2 : b ∈ rest :=
                (List.dropLast_sublist rest).subset hb
              have hbmem : b ∈ s.newBlocks := by
                rw [heq]
                exact List.mem_cons_of_mem first hbrest2
              have hbb : b ≠ block := fun he => hblockni (he ▸ hbmem)
              have hrestne : rest ≠ [] := by
                intro hre
                rw [hre] at hbrest2
                cases hbrest2
              have hrestnodup : rest.Nodup := by
                rw [heq] at hnodup
                exact hnodup.of_cons
              have hrlast : rest.getLast? =
                  some (List.getLastD (first :: rest) first) := by
                have h0 := hlastq
                rw [heq, getLast?_cons_of_ne_nil hrestne] at h0
                exact h0
              have hbl : b ≠ List.getLastD (first :: rest) first :=
                fun he => last_not_mem_dropLast hrestnodup hrlast (he ▸ hb)
              rw [hcsblocks, setBlk_other hbb, setBlk_other hbl,
                setBlk_other hbb]
              rcases mem_dropLast_or_last hlastq hbmem with hd | hd
              · exact hmid b hd
              · exact absurd hd hbl
          · intro b hbne hbni
            rw [hcsblocks, setBlk_other hbne,
              setBlk_other (fun he => hbni (by rw [he]; exact hlmem)), setBlk_other hbne]
          · intro b hb
            rcases tailRepair_ok_newBlocks h with ⟨hkeep, _⟩ | hdrop
            · rw [hkeep, hnb4] at hb
              rw [heq]
              exact List.mem_cons_of_mem first hb
            · rw [hdrop, hnb4] at hb
              rw [heq]
              exact List.mem_cons_of_mem first
                ((List.dropLast_sublist rest).subset hb)

theorem foldl_offsetShift_size (block : BlockId) (p delta : Int)
    (L : List BlockId) (bs : BlockId → Block) (b : BlockId) :
    ((L.foldl (fun bs2 b2 =>
        if b2 ≠ block ∧ p ≤ (bs2 b2).offset then
          setBlk bs2 b2 { bs2 b2 with offset := (bs2 b2).offset + delta }
        else bs2) bs) b).size = (bs b).size := by
  induction L generalizing bs with
  | nil => rfl
  | cons x L ih =>
    simp only [List.foldl_cons]
    rw [ih]
    split
    · by_cases hbx : b = x
      · subst hbx
        rw [setBlk_same]
      · rw [setBlk_other hbx]
    · rfl

theorem foldl_translate_size (p : Int) (L : List BlockId)
    (bs : BlockId → Block) (b : BlockId) :
    ((L.foldl (fun bs2 b2 =>
        setBlk bs2 b2 { bs2 b2 with offset := (bs2 b2).offset + p }) bs) b).size =
      (bs b).size := by
  induction L generalizing bs with
  | nil => rfl
  | cons x L ih =>
    simp only [List.foldl_cons]
    rw [ih]
    by_cases hbx : b = x
    · subst hbx
      rw [setBlk_same]
    · rw [setBlk_other hbx]

theorem postBlocks_size {block : BlockId} {p sizeDelta : Int}
    {biBlocks newBlocksL : List BlockId} {bs : BlockId → Block} (b : BlockId) :
    ((postBlocks block p sizeDelta biBlocks newBlocksL bs) b).size =
      (bs b).size := by
  unfold postBlocks
  rw [foldl_translate_size, foldl_offsetShift_size]

/-- C1: for inputs satisfying the preconditions (and the quiescent
invariant that every existing block of the byte interval has positive
size, the fragment blocks being fresh, distinct and of non-negative
size), when `_modify_block_insert` returns successfully every code
block of the byte interval — the edited block, every kept fragment
block, and every other block — has `size ≥ 1`. -/
theorem splice_sizes_spec {block : BlockId} {offset rl : Int}
    {newBytes : List Nat} {newBlocks : List BlockId} {newCfg : Cfg}
    {newSymExprs : List (Int × Nat)} {newSymbols : List GSymbol}
    {st st' : EngineState}
    (h : _modify_block_insert block offset rl newBytes newBlocks newCfg
      newSymExprs newSymbols st = Except.ok st')
    (hbi : ∀ b ∈ st.biBlocks, 1 ≤ (st.blocks b).size)
    (hnodup : newBlocks.Nodup)
    (hfresh : ∀ b ∈ newBlocks, b ∉ st.biBlocks)
    (hnn : ∀ b ∈ newBlocks, 0 ≤ (st.blocks b).size) :
    ∀ b ∈ st'.biBlocks, 1 ≤ (st'.blocks b).size := by
  obtain ⟨hA, cs, hcs, hst⟩ := modify_ok_elim h
  obtain ⟨hA1, hA2, hA3, hA4, hA5, hA6, hA7, hA8, hA9, hA10, hA11, hA12, hA13⟩ := hA
  have hszb : 1 ≤ (st.blocks block).size := hbi block hA13
  have hnb1 : (1 : Int) ≤ (newBytes.length : Int) := by
    exact_mod_cast List.length_pos.mpr hA7
  have hfirstS : ∀ b ∈ newBlocks.take 1, 1 ≤ (st.blocks b).size := by
    intro b hb
    have h1 := hA10 b hb
    have h2 := hnn b (List.take_subset 1 newBlocks hb)
    omega
  have hmidS : ∀ b ∈ newBlocks.dropLast, 1 ≤ (st.blocks b).size := by
    intro b hb
    have h1 := hA11 b hb
    have h2 := hnn b ((List.dropLast_sublist newBlocks).subset hb)
    omega
  obtain ⟨hc1, hc2, hc3, hc4⟩ :=
    cfg_ok_sizes hcs hszb hA2 hA6 hA5 hnb1 hnodup hA9 hfirstS hmidS hnn
  subst hst
  intro b hb
  unfold spliceFinalize at hb ⊢
  dsimp only at hb ⊢
  rw [postBlocks_size]
  rcases List.mem_append.mp hb with hbl | hbr
  · by_cases hbb : b = block
    · subst hbb
      exact hc1
    · by_cases hbn : b ∈ newBlocks
      · exact absurd hbl (hfresh b hbn)
      · rw [hc3 b hbb hbn]
        exact hbi b hbl
  · have hbn : b ∈ cs.newBlocks := (List.mem_filter.mp hbr).1
    exact hc2 b hbn

/-- C1 witness: a concrete successful splice after which every block
of the byte interval has positive size. -/
theorem splice_sizes_spec_witness :
    ∃ st', _modify_block_insert 0 4 0 [170, 187] [1] [] [] []
        sampleEngineState = Except.ok st' ∧
      ∀ b ∈ st'.biBlocks, 1 ≤ (st'.blocks b).size := by
  have hex : ∃ x, _modify_block_insert 0 4 0 [170, 187] [1] [] [] []
      sampleEngineState = Except.ok x := ⟨_, rfl⟩
  cases hrun : _modify_block_insert 0 4 0 [170, 187] [1] [] [] []
      sampleEngineState with
  | error e =>
    rw [hrun] at hex
    obtain ⟨x, hx⟩ := hex
    cases hx
  | ok st' =>
    exact ⟨st', rfl, splice_sizes_spec hrun (by decide) (by decide)
      (by decide) (by decide)⟩

theorem pipeline_block_size {block first lastB : BlockId}
    {offset rl orig : Int} {iae rli : Bool} {s : CfgState}
    (hlneb : lastB ≠ block) :
    ((redirectOutgoing block lastB iae rli
        (addFallthroughEdge block first iae
          (truncateAndExtend block lastB offset rl orig s))).blocks block).size =
      offset := by
  rw [pipeline_blocks hlneb,
    setBlk_other (fun he : block = lastB => hlneb he.symm), setBlk_same]

theorem pipeline_last_size {block first lastB : BlockId}
    {offset rl orig : Int} {iae rli : Bool} {s : CfgState}
    (hlneb : lastB ≠ block) :
    ((redirectOutgoing block lastB iae rli
        (addFallthroughEdge block first iae
          (truncateAndExtend block lastB offset rl orig s))).blocks lastB).size =
      (s.blocks lastB).size + (orig - offset - rl) := by
  rw [pipeline_blocks hlneb, setBlk_same]

theorem cfg_run_norepair {block : BlockId} {offset rl nbLen : Int}
    {s : CfgState} {first lastB : BlockId} {rest : List BlockId} {iae rli : Bool}
    (hnb : s.newBlocks = first :: rest)
    (hlastB : lastB = List.getLastD (first :: rest) first)
    (hiae : iae = decide (rl = 0 ∧ offset = (s.blocks block).size))
    (hrli : rli = decide (rl ≠ 0 ∧ offset + rl = (s.blocks block).size))
    (hnontriv : ¬(s.newCfg = [] ∧ s.newSymbols = [] ∧
      decide (rl = 0 ∧ offset = (s.blocks block).size) = false ∧
      decide (rl ≠ 0 ∧ offset + rl = (s.blocks block).size) = false))
    (hlneb : lastB ≠ block) (hoffnz : offset ≠ 0)
    (hlastnz : (s.blocks lastB).size +
      ((s.blocks block).size - offset - rl) ≠ 0) :
    _modify_block_insert_cfg block offset rl nbLen s =
      Except.ok (redirectOutgoing block lastB iae rli
        (addFallthroughEdge block first iae
          (truncateAndExtend block lastB offset rl (s.blocks block).size s))) := by
  subst hlastB
  subst hiae
  subst hrli
  have hhead : headRepair block first
      (redirectOutgoing block (List.getLastD (first :: rest) first)
        (decide (rl = 0 ∧ offset = (s.blocks block).size))
        (decide (rl ≠ 0 ∧ offset + rl = (s.blocks block).size))
        (addFallthroughEdge block first
          (decide (rl = 0 ∧ offset = (s.blocks block).size))
          (truncateAndExtend block (List.getLastD (first :: rest) first)
            offset rl (s.blocks block).size s))) =
      Except.ok
        (redirectOutgoing block (List.getLastD (first :: rest) first)
          (decide (rl = 0 ∧ offset = (s.blocks block).size))
          (decide (rl ≠ 0 ∧ offset + rl = (s.blocks block).size))
          (addFallthroughEdge block first
            (decide (rl = 0 ∧ offset = (s.blocks block).size))
            (truncateAndExtend block (List.getLastD (first :: rest) first)
              offset rl (s.blocks block).size s))) := by
    apply headRepair_no_repair
    rw [pipeline_block_size hlneb]
    exact hoffnz
  have htail : tailRepair
      (redirectOutgoing block (List.getLastD (first :: rest) first)
        (decide (rl = 0 ∧ offset = (s.blocks block).size))
        (decide (rl ≠ 0 ∧ offset + rl = (s.blocks block).size))
        (addFallthroughEdge block first
          (decide (rl = 0 ∧ offset = (s.blocks block).size))
          (truncateAndExtend block (List.getLastD (first :: rest) first)
            offset rl (s.blocks block).size s))) =
      Except.ok
        (redirectOutgoing block (List.getLastD (first :: rest) first)
          (decide (rl = 0 ∧ offset = (s.blocks block).size))
          (decide (rl ≠ 0 ∧ offset + rl = (s.blocks block).size))
          (addFallthroughEdge block first
            (decide (rl = 0 ∧ offset = (s.blocks block).size))
            (truncateAndExtend block (List.getLastD (first :: rest) first)
              offset rl (s.blocks block).size s))) := by
    apply tailRepair_no_repair
    · rw [pipeline_newBlocks, hnb]
      exact getLast?_cons_getLastD first first rest
    · rw [pipeline_last_size hlneb]
      exact hlastnz
  unfold _modify_block_insert_cfg
  dsimp only
  rw [if_neg hnontriv, hnb]
  dsimp only
  rw [hhead]
  exact htail

/-- C3: in the general case of a splice that triggers neither
zero-size repair (interior truncation leaves the block non-empty, and
the extended last fragment block is non-empty), the outgoing edges of
the original block are redirected in the final module CFG exactly per
the edit classification: when `inserts_at_end`, fall-through edges move
to originate from the last fragment block and other edges stay on the
original block; when `replaces_last_insn`, fall-through edges move and
other edges are discarded; otherwise every outgoing edge moves to the
last fragment block. -/
theorem splice_redirect_spec {block : BlockId} {offset rl : Int}
    {newBytes : List Nat} {first lastB : BlockId} {rest : List BlockId}
    {newCfg : Cfg} {newSymExprs : List (Int × Nat)} {newSymbols : List GSymbol}
    {st st' : EngineState}
    (h : _modify_block_insert block offset rl newBytes (first :: rest) newCfg
      newSymExprs newSymbols st = Except.ok st')
    (hlastB : lastB = List.getLastD (first :: rest) first)
    (hgen : ¬(newCfg = [] ∧ newSymbols = [] ∧
      decide (rl = 0 ∧ offset = (st.blocks block).size) = false ∧
      decide (rl ≠ 0 ∧ offset + rl = (st.blocks block).size) = false))
    (hoffnz : offset ≠ 0)
    (hlastnz : (st.blocks lastB).size +
      ((st.blocks block).size - offset - rl) ≠ 0)
    (hsrc : ∀ e ∈ newCfg, e.source ≠ block)
    (htgt : ∀ e ∈ st.modCfg, e.target ∉ (first :: rest)) :
    ∀ e ∈ st.modCfg, e.source = block →
      (((rl = 0 ∧ offset = (st.blocks block).size) →
          (_is_fallthrough_edge e = true →
            { e with source := lastB } ∈ st'.modCfg ∧ e ∉ st'.modCfg) ∧
          (_is_fallthrough_edge e = false → e ∈ st'.modCfg)) ∧
        ((rl ≠ 0 ∧ offset + rl = (st.blocks block).size) →
          (_is_fallthrough_edge e = true →
            { e with source := lastB } ∈ st'.modCfg ∧ e ∉ st'.modCfg) ∧
          (_is_fallthrough_edge e = false → e ∉ st'.modCfg)) ∧
        ((¬(rl = 0 ∧ offset = (st.blocks block).size) ∧
            ¬(rl ≠ 0 ∧ offset + rl = (st.blocks block).size)) →
          { e with source := lastB } ∈ st'.modCfg ∧ e ∉ st'.modCfg)) := by
  obtain ⟨hA, cs, hcs, hst⟩ := modify_ok_elim h
  have hA9 : block ∉ (first :: rest) := hA.2.2.2.2.2.2.2.2.1
  have hlmem : lastB ∈ (first :: rest) := by
    rw [hlastB]
    exact getLast?_mem_of_eq (getLast?_cons_getLastD first first rest)
  have hlneb : lastB ≠ block := fun he => hA9 (he ▸ hlmem)
  have hrun := @cfg_run_norepair block offset rl (newBytes.length : Int)
    { blocks := st.blocks, modCfg := st.modCfg, newBlocks := first :: rest,
      newCfg := newCfg, newSymbols := newSymbols }
    first lastB rest
    (decide (rl = 0 ∧ offset = (st.blocks block).size))
    (decide (rl ≠ 0 ∧ offset + rl = (st.blocks block).size))
    rfl hlastB rfl rfl hgen hlneb hoffnz hlastnz
  have hcseq : cs = _ := (Except.ok.inj (hcs.symm.trans hrun))
  dsimp only at hcseq
  have hfinal : ∀ x : Edge, x ∈ st'.modCfg ↔ x ∈ cs.modCfg ∨ x ∈ cs.newCfg := by
    intro x
    rw [hst]
    unfold spliceFinalize
    dsimp only
    exact Cfg.mem_update
  have hmodmem : ∀ x : Edge, x ∈ cs.modCfg ↔
      x ∈ st.modCfg ∧ (x.source = block →
        discardsEdge (decide (rl = 0 ∧ offset = (st.blocks block).size))
          (decide (rl ≠ 0 ∧ offset + rl = (st.blocks block).size)) x = false) := by
    intro x
    rw [hcseq, redirectOutgoing_modCfg_mem, addFallthroughEdge_modCfg,
      truncateAndExtend_modCfg]
  have hnewmem : ∀ x : Edge, x ∈ cs.newCfg ↔
      (x ∈ newCfg ∨
        ((!(decide (rl = 0 ∧ offset = (st.blocks block).size)) ||
            (st.modCfg.outEdges block).any (fun y => _is_fallthrough_edge y)) = true ∧
          x = { source := block, target := first,
                label := some EdgeType.fallthrough })) ∨
        ∃ y, y ∈ st.modCfg ∧ y.source = block ∧
          movesEdge (decide (rl = 0 ∧ offset = (st.blocks block).size))
            (decide (rl ≠ 0 ∧ offset + rl = (st.blocks block).size)) y = true ∧
          x = { y with source := lastB } := by
    intro x
    rw [hcseq, redirectOutgoing_newCfg_mem, addFallthroughEdge_newCfg_mem,
      addFallthroughEdge_modCfg, truncateAndExtend_modCfg,
      truncateAndExtend_newCfg]
  intro e he hesrc
  have hmoved_in :
      movesEdge (decide (rl = 0 ∧ offset = (st.blocks block).size))
        (decide (rl ≠ 0 ∧ offset + rl = (st.blocks block).size)) e = true →
      { e with source := lastB } ∈ st'.modCfg := by
    intro hm
    exact (hfinal _).mpr (Or.inr ((hnewmem _).mpr (Or.inr ⟨e, he, hesrc, hm, rfl⟩)))
  have hnot_in :
      discardsEdge (decide (rl = 0 ∧ offset = (st.blocks block).size))
        (decide (rl ≠ 0 ∧ offset + rl = (st.blocks block).size)) e = true →
      e ∉ st'.modCfg := by
    intro hd hmem
    rcases (hfinal e).mp hmem with hm | hn
    · obtain ⟨_, himp⟩ := (hmodmem e).mp hm
      rw [himp hesrc] at hd
      cases hd
    · rcases (hnewmem e).mp hn with (hx | ⟨_, hee⟩) | ⟨y, _, _, _, hey⟩
      · exact hsrc e hx hesrc
      · have : e.target = first := by rw [hee]
        exact htgt e he (this ▸ List.mem_cons_self first rest)
      · have : e.source = lastB := by rw [hey]
        exact hlneb (hesrc ▸ this).symm
  have hkept :
      discardsEdge (decide (rl = 0 ∧ offset = (st.blocks block).size))
        (decide (rl ≠ 0 ∧ offset + rl = (st.blocks block).size)) e = false →
      e ∈ st'.modCfg := by
    intro hd
    exact (hfinal e).mpr (Or.inl ((hmodmem e).mpr ⟨he, fun _ => hd⟩))
  refine ⟨?_, ?_, ?_⟩
  · intro hc
    have hiaeT : decide (rl = 0 ∧ offset = (st.blocks block).size) = true :=
      decide_eq_true hc
    constructor
    · intro hft
      constructor
      · exact hmoved_in (by unfold movesEdge; rw [hiaeT]; simp [hft])
      · exact hnot_in (by unfold discardsEdge; rw [hiaeT]; simp [hft])
    · intro hft
      exact hkept (by unfold discardsEdge; rw [hiaeT]; simp [hft])
  · intro hc
    have hiaeF : decide (rl = 0 ∧ offset = (st.blocks block).size) = false := by
      simp only [decide_eq_false_iff_not]
      intro hcc
      exact hc.1 hcc.1
    have hrliT : decide (rl ≠ 0 ∧ offset + rl = (st.blocks block).size) = true :=
      decide_eq_true hc
    constructor
    · intro hft
      constructor
      · exact hmoved_in (by unfold movesEdge; rw [hiaeF, hrliT]; simp [hft])
      · exact hnot_in (by unfold discardsEdge; rw [hiaeF]; simp)
    · intro hft
      exact hnot_in (by unfold discardsEdge; rw [hiaeF]; simp)
  · intro hc
    have hiaeF : decide (rl = 0 ∧ offset = (st.blocks block).size) = false := by
      simp only [decide_eq_false_iff_not]
      exact hc.1
    have hrliF : decide (rl ≠ 0 ∧ offset + rl = (st.blocks block).size) = false := by
      simp only [decide_eq_false_iff_not]
      exact hc.2
    constructor
    · exact hmoved_in (by unfold movesEdge; rw [hiaeF, hrliF]; simp)
    · exact hnot_in (by unfold discardsEdge; rw [hiaeF]; simp)

/-- C3 witness: replacing the final branch instruction of a block
discards its branch edge from the final CFG. -/
theorem splice_redirect_spec_witness :
    ∃ st', _modify_block_insert 0 4 2 [144, 144] [1] [] [] []
        sampleEngineState4 = Except.ok st' ∧
      { source := 0, target := 50, label := some EdgeType.branch } ∉
        st'.modCfg := by
  have hex : ∃ x, _modify_block_insert 0 4 2 [144, 144] [1] [] [] []
      sampleEngineState4 = Except.ok x := ⟨_, rfl⟩
  cases hrun : _modify_block_insert 0 4 2 [144, 144] [1] [] [] []
      sampleEngineState4 with
  | error e =>
    rw [hrun] at hex
    obtain ⟨x, hx⟩ := hex
    cases hx
  | ok st' =>
    have hc := splice_redirect_spec hrun rfl (by decide) (by decide)
      (by decide) (by decide) (by decide)
    have hfate := hc { source := 0, target := 50, label := some EdgeType.branch }
      (by decide) rfl
    exact ⟨st', rfl, (hfate.2.1 (by decide)).2 (by decide)⟩

/-- C4: in the general no-repair case of a splice, the fall-through
edge from the original block to the first fragment block is present in
the final module CFG exactly when the edit is not `inserts_at_end` or
the original block had at least one outgoing fall-through edge. -/
theorem splice_fallthrough_spec {block : BlockId} {offset rl : Int}
    {newBytes : List Nat} {first lastB : BlockId} {rest : List BlockId}
    {newCfg : Cfg} {newSymExprs : List (Int × Nat)} {newSymbols : List GSymbol}
    {st st' : EngineState}
    (h : _modify_block_insert block offset rl newBytes (first :: rest) newCfg
      newSymExprs newSymbols st = Except.ok st')
    (hlastB : lastB = List.getLastD (first :: rest) first)
    (hgen : ¬(newCfg = [] ∧ newSymbols = [] ∧
      decide (rl = 0 ∧ offset = (st.blocks block).size) = false ∧
      decide (rl ≠ 0 ∧ offset + rl = (st.blocks block).size) = false))
    (hoffnz : offset ≠ 0)
    (hlastnz : (st.blocks lastB).size +
      ((st.blocks block).size - offset - rl) ≠ 0)
    (hsrc : ∀ e ∈ newCfg, e.source ≠ block)
    (htgt : ∀ e ∈ st.modCfg, e.target ∉ (first :: rest)) :
    ({ source := block, target := first,
        label := some EdgeType.fallthrough } ∈ st'.modCfg ↔
      (¬(rl = 0 ∧ offset = (st.blocks block).size) ∨
        ∃ e ∈ st.modCfg, e.source = block ∧ _is_fallthrough_edge e = true)) := by
  obtain ⟨hA, cs, hcs, hst⟩ := modify_ok_elim h
  have hA9 : block ∉ (first :: rest) := hA.2.2.2.2.2.2.2.2.1
  have hlmem : lastB ∈ (first :: rest) := by
    rw [hlastB]
    exact getLast?_mem_of_eq (getLast?_cons_getLastD first first rest)
  have hlneb : lastB ≠ block := fun he => hA9 (he ▸ hlmem)
  have hfmem : first ∈ (first :: rest) := List.mem_cons_self first rest
  have hrun := @cfg_run_norepair block offset rl (newBytes.length : Int)
    { blocks := st.blocks, modCfg := st.modCfg, newBlocks := first :: rest,
      newCfg := newCfg, newSymbols := newSymbols }
    first lastB rest
    (decide (rl = 0 ∧ offset = (st.blocks block).size))
    (decide (rl ≠ 0 ∧ offset + rl = (st.blocks block).size))
    rfl hlastB rfl rfl hgen hlneb hoffnz hlastnz
  have hcseq : cs = _ := (Except.ok.inj (hcs.symm.trans hrun))
  dsimp only at hcseq
  have hfinal : ∀ x : Edge, x ∈ st'.modCfg ↔ x ∈ cs.modCfg ∨ x ∈ cs.newCfg := by
    intro x
    rw [hst]
    unfold spliceFinalize
    dsimp only
    exact Cfg.mem_update
  have hmodmem : ∀ x : Edge, x ∈ cs.modCfg ↔
      x ∈ st.modCfg ∧ (x.source = block →
        discardsEdge (decide (rl = 0 ∧ offset = (st.blocks block).size))
          (decide (rl ≠ 0 ∧ offset + rl = (st.blocks block).size)) x = false) := by
    intro x
    rw [hcseq, redirectOutgoing_modCfg_mem, addFallthroughEdge_modCfg,
      truncateAndExtend_modCfg]
  have hnewmem : ∀ x : Edge, x ∈ cs.newCfg ↔
      (x ∈ newCfg ∨
        ((!(decide (rl = 0 ∧ offset = (st.blocks block).size)) ||
            (st.modCfg.outEdges block).any (fun y => _is_fallthrough_edge y)) = true ∧
          x = { source := block, target := first,
                label := some EdgeType.fallthrough })) ∨
        ∃ y, y ∈ st.modCfg ∧ y.source = block ∧
          movesEdge (decide (rl = 0 ∧ offset = (st.blocks block).size))
            (decide (rl ≠ 0 ∧ offset + rl = (st.blocks block).size)) y = true ∧
          x = { y with source := lastB } := by
    intro x
    rw [hcseq, redirectOutgoing_newCfg_mem, addFallthroughEdge_newCfg_mem,
      addFallthroughEdge_modCfg, truncateAndExtend_modCfg,
      truncateAndExtend_newCfg]
  have hcond :
      ((!(decide (rl = 0 ∧ offset = (st.blocks block).size)) ||
          (st.modCfg.outEdges block).any (fun y => _is_fallthrough_edge y)) = true) ↔
      (¬(rl = 0 ∧ offset = (st.blocks block).size) ∨
        ∃ e ∈ st.modCfg, e.source = block ∧ _is_fallthrough_edge e = true) := by
    rw [Bool.or_eq_true, Bool.not_eq_true', decide_eq_false_iff_not,
      List.any_eq_true]
    constructor
    · rintro (hni | ⟨y, hy, hft⟩)
      · exact Or.inl hni
      · rw [Cfg.mem_outEdges] at hy
        exact Or.inr ⟨y, hy.1, hy.2, hft⟩
    · rintro (hni | ⟨y, hy, hys, hft⟩)
      · exact Or.inl hni
      · refine Or.inr ⟨y, ?_, hft⟩
        rw [Cfg.mem_outEdges]
        exact ⟨hy, hys⟩
  constructor
  · intro hmem
    rcases (hfinal _).mp hmem with hm | hn
    · obtain ⟨hin, _⟩ := (hmodmem _).mp hm
      exact absurd hfmem (htgt _ hin)
    · rcases (hnewmem _).mp hn with (hx | ⟨hc, _⟩) | ⟨y, _, _, _, hey⟩
      · exact absurd rfl (hsrc _ hx)
      · exact hcond.mp hc
      · have : block = lastB := by
          have := congrArg Edge.source hey
          exact this
        exact absurd this.symm hlneb
  · intro hc
    refine (hfinal _).mpr (Or.inr ((hnewmem _).mpr (Or.inl (Or.inr
      ⟨hcond.mpr hc, rfl⟩))))

/-- C4 witness: inserting at the very end of a block that ends in a
return (no fall-through out-edges) adds no fall-through edge from that
block to the new blocks. -/
theorem splice_fallthrough_spec_witness :
    ∃ st', _modify_block_insert 0 6 0 [144] [1] [] []
        [{ sid := 3, referent := some 1 }] sampleEngineState4 =
        Except.ok st' ∧
      { source := 0, target := 1, label := some EdgeType.fallthrough } ∉
        st'.modCfg := by
  have hex : ∃ x, _modify_block_insert 0 6 0 [144] [1] [] []
      [{ sid := 3, referent := some 1 }] sampleEngineState4 =
      Except.ok x := ⟨_, rfl⟩
  cases hrun : _modify_block_insert 0 6 0 [144] [1] [] []
      [{ sid := 3, referent := some 1 }] sampleEngineState4 with
  | error e =>
    rw [hrun] at hex
    obtain ⟨x, hx⟩ := hex
    cases hx
  | ok st' =>
    have hc := splice_fallthrough_spec hrun rfl (by decide) (by decide)
      (by decide) (by decide) (by decide)
    refine ⟨st', rfl, fun hmem => ?_⟩
    have := hc.mp hmem
    rcases this with hni | ⟨e, he, hes, hft⟩
    · exact hni (by decide)
    · have : e = { source := 0, target := 50, label := some EdgeType.branch } := by
        have hme := he
        simp only [sampleEngineState4, List.mem_singleton] at hme
        exact hme
      rw [this] at hft
      cases hft

theorem discard_fold_mem (L : List Edge) (c : Cfg) (x : Edge) :
    x ∈ L.foldl Cfg.discard c ↔ x ∈ c ∧ x ∉ L := by
  induction L generalizing c with
  | nil => simp
  | cons z L ih =>
    simp only [List.foldl_cons, ih, Cfg.mem_discard, List.mem_cons]
    constructor
    · rintro ⟨⟨hx, hz⟩, hL⟩
      exact ⟨hx, fun hm => hm.elim hz hL⟩
    · rintro ⟨hx, hm⟩
      exact ⟨⟨hx, fun he => hm (Or.inl he)⟩, fun hL => hm (Or.inr hL)⟩

theorem subst_fold_mem_target {old nb : BlockId} (hne : nb ≠ old)
    (L : List Edge) (acc : Cfg) (x : Edge) (hL : ∀ y ∈ L, y.target = old) :
    x ∈ L.foldl (fun c e => (c.discard e).add { e with target := nb }) acc ↔
      (x ∈ acc ∧ x ∉ L) ∨ ∃ y ∈ L, x = { y with target := nb } := by
  induction L generalizing acc with
  | nil => simp
  | cons z L ih =>
    have hLz : ∀ y ∈ L, y.target = old := fun y hy => hL y (List.mem_cons_of_mem z hy)
    simp only [List.foldl_cons, ih _ hLz, Cfg.mem_add, Cfg.mem_discard,
      List.mem_cons]
    constructor
    · rintro (⟨(⟨hx, hz⟩ | hsub), hL'⟩ | ⟨y, hy, hey⟩)
      · exact Or.inl ⟨hx, fun hm => hm.elim hz hL'⟩
      · exact Or.inr ⟨z, Or.inl rfl, hsub⟩
      · exact Or.inr ⟨y, Or.inr hy, hey⟩
    · rintro (⟨hx, hm⟩ | ⟨y, (rfl | hy), hey⟩)
      · exact Or.inl ⟨Or.inl ⟨hx, fun he => hm (Or.inl he)⟩,
          fun hL' => hm (Or.inr hL')⟩
      · refine Or.inl ⟨Or.inr hey, ?_⟩
        intro hxL
        have := hLz x hxL
        rw [hey] at this
        exact hne this
      · exact Or.inr ⟨y, hy, hey⟩

theorem subst_fold_mem_source {old nb : BlockId} (hne : nb ≠ old)
    (L : List Edge) (acc : Cfg) (x : Edge) (hL : ∀ y ∈ L, y.source = old) :
    x ∈ L.foldl (fun c e => (c.discard e).add { e with source := nb }) acc ↔
      (x ∈ acc ∧ x ∉ L) ∨ ∃ y ∈ L, x = { y with source := nb } := by
  induction L generalizing acc with
  | nil => simp
  | cons z L ih =>
    have hLz : ∀ y ∈ L, y.source = old := fun y hy => hL y (List.mem_cons_of_mem z hy)
    simp only [List.foldl_cons, ih _ hLz, Cfg.mem_add, Cfg.mem_discard,
      List.mem_cons]
    constructor
    · rintro (⟨(⟨hx, hz⟩ | hsub), hL'⟩ | ⟨y, hy, hey⟩)
      · exact Or.inl ⟨hx, fun hm => hm.elim hz hL'⟩
      · exact Or.inr ⟨z, Or.inl rfl, hsub⟩
      · exact Or.inr ⟨y, Or.inr hy, hey⟩
    · rintro (⟨hx, hm⟩ | ⟨y, (rfl | hy), hey⟩)
      · exact Or.inl ⟨Or.inl ⟨hx, fun he => hm (Or.inl he)⟩,
          fun hL' => hm (Or.inr hL')⟩
      · refine Or.inl ⟨Or.inr hey, ?_⟩
        intro hxL
        have := hLz x hxL
        rw [hey] at this
        exact hne this
      · exact Or.inr ⟨y, hy, hey⟩

theorem substitute_no_old {old nb : BlockId} (hne : nb ≠ old) (c : Cfg)
    (syms : List GSymbol) :
    ∀ x ∈ (_substitute_block old nb c syms).1, x.source ≠ old ∧ x.target ≠ old := by
  intro x hx
  unfold _substitute_block at hx
  dsimp only at hx
  have hL1 : ∀ y ∈ (c.inEdges old).dedup, y.target = old := by
    intro y hy
    rw [List.mem_dedup, Cfg.mem_inEdges] at hy
    exact hy.2
  have hL2 : ∀ y ∈ (((c.inEdges old).dedup.foldl
      (fun c2 e => (c2.discard e).add { e with target := nb }) c).outEdges old).dedup,
      y.source = old := by
    intro y hy
    rw [List.mem_dedup, Cfg.mem_outEdges] at hy
    exact hy.2
  rw [subst_fold_mem_source hne _ _ _ hL2] at hx
  have htgt1 : ∀ z, z ∈ ((c.inEdges old).dedup.foldl
      (fun c2 e => (c2.discard e).add { e with target := nb }) c) →
      z.target ≠ old := by
    intro z hz
    rw [subst_fold_mem_target hne _ _ _ hL1] at hz
    rcases hz with ⟨hzc, hznm⟩ | ⟨y, hy, hey⟩
    · intro heq
      apply hznm
      rw [List.mem_dedup, Cfg.mem_inEdges]
      exact ⟨hzc, heq⟩
    · rw [hey]
      exact hne
  rcases hx with ⟨hxc, hxnm⟩ | ⟨y, hy, hey⟩
  · constructor
    · intro heq
      apply hxnm
      rw [List.mem_dedup, Cfg.mem_outEdges]
      exact ⟨hxc, heq⟩
    · exact htgt1 x hxc
  · constructor
    · rw [hey]
      exact hne
    · rw [hey]
      dsimp only
      rw [List.mem_dedup] at hy
      exact htgt1 y ((Cfg.mem_outEdges.mp hy).1)

theorem headRepair_error_elim {block first : BlockId} {s : CfgState}
    {e : SpliceErr} (h : headRepair block first s = Except.error e) :
    (s.blocks block).size = 0 ∧
      (s.newCfg.inEdges first).find?
        (fun x => _is_fallthrough_edge x && decide (x.source = block)) = none := by
  unfold headRepair at h
  split at h
  · rename_i hz
    split at h
    · rename_i hfind
      exact ⟨hz, hfind⟩
    · cases h
  · cases h

theorem tailRepair_error_elim {s : CfgState} {e : SpliceErr}
    (h : tailRepair s = Except.error e) : e = SpliceErr.notImplementedError := by
  unfold tailRepair at h
  split at h
  · cases h
  · split at h
    · dsimp only at h
      split at h
      · cases h
      · split at h
        · cases h
        · injection h with h
          exact h.symm
    · cases h

theorem cfg_error_classified {block : BlockId} {offset rl nbLen : Int}
    {s : CfgState} {ec : SpliceErr}
    (h : _modify_block_insert_cfg block offset rl nbLen s = Except.error ec)
    (hnbne : s.newBlocks ≠ [])
    (hblockni : block ∉ s.newBlocks)
    (hsz1 : 1 ≤ (s.blocks block).size) :
    ec = SpliceErr.notImplementedError := by
  unfold _modify_block_insert_cfg at h
  split at h
  · exact absurd (by assumption) hnbne
  · rename_i first rest heq
    dsimp only at h
    split at h
    · cases h
    · split at h
      · rename_i ehead heq4
        obtain ⟨hz, hfind⟩ := headRepair_error_elim heq4
        have hlmem : List.getLastD (first :: rest) first ∈ s.newBlocks := by
          rw [heq]
          exact getLast?_mem_of_eq (getLast?_cons_getLastD first first rest)
        have hlneb : List.getLastD (first :: rest) first ≠ block :=
          fun he => hblockni (he ▸ hlmem)
        rw [pipeline_block_size hlneb] at hz
        exfalso
        have hiaeF : decide (rl = 0 ∧ offset = (s.blocks block).size) = false := by
          simp only [decide_eq_false_iff_not]
          rintro ⟨-, h2⟩
          omega
        have hadd : (⟨block, first, some EdgeType.fallthrough⟩ : Edge) ∈
            (redirectOutgoing block (List.getLastD (first :: rest) first)
              (decide (rl = 0 ∧ offset = (s.blocks block).size))
              (decide (rl ≠ 0 ∧ offset + rl = (s.blocks block).size))
              (addFallthroughEdge block first
                (decide (rl = 0 ∧ offset = (s.blocks block).size))
                (truncateAndExtend block (List.getLastD (first :: rest) first)
                  offset rl (s.blocks block).size s))).newCfg := by
          rw [redirectOutgoing_newCfg_mem]
          refine Or.inl ?_
          rw [addFallthroughEdge_newCfg_mem]
          refine Or.inr ⟨?_, rfl⟩
          rw [hiaeF]
          rfl
        rw [List.find?_eq_none] at hfind
        exact hfind _ (by rw [Cfg.mem_inEdges]; exact ⟨hadd, rfl⟩)
          (by simp [_is_fallthrough_edge])
      · rename_i s4 heq4
        exact tailRepair_error_elim h

theorem splice_error_only {block : BlockId} {offset rl : Int}
    {newBytes : List Nat} {newBlocks : List BlockId} {newCfg : Cfg}
    {newSymExprs : List (Int × Nat)} {newSymbols : List GSymbol}
    {st : EngineState} {e : SpliceErr}
    (h : _modify_block_insert block offset rl newBytes newBlocks newCfg
      newSymExprs newSymbols st = Except.error e)
    (hA : spliceAsserts block offset rl newBytes newBlocks newCfg st)
    (hbi : ∀ b ∈ st.biBlocks, 1 ≤ (st.blocks b).size)
    (hnodup : newBlocks.Nodup)
    (hnn : ∀ b ∈ newBlocks, 0 ≤ (st.blocks b).size) :
    e = SpliceErr.notImplementedError := by
  unfold _modify_block_insert at h
  rw [if_pos hA] at h
  obtain ⟨hA1, hA2, hA3, hA4, hA5, hA6, hA7, hA8, hA9, hA10, hA11, hA12, hA13⟩ := hA
  have hszb : 1 ≤ (st.blocks block).size := hbi block hA13
  have hnb1 : (1 : Int) ≤ (newBytes.length : Int) := by
    exact_mod_cast List.length_pos.mpr hA7
  cases hcs : _modify_block_insert_cfg block offset rl (newBytes.length : Int)
      { blocks := st.blocks, modCfg := st.modCfg, newBlocks := newBlocks,
        newCfg := newCfg, newSymbols := newSymbols } with
  | error ec =>
    rw [hcs] at h
    dsimp only at h
    injection h with h
    subst h
    exact cfg_error_classified hcs hA8 hA9 hszb
  | ok cs =>
    rw [hcs] at h
    dsimp only at h
    exfalso
    have hfirstS : ∀ b ∈ newBlocks.take 1, 1 ≤ (st.blocks b).size := by
      intro b hb
      have h1 := hA10 b hb
      have h2 := hnn b (List.take_subset 1 newBlocks hb)
      omega
    have hmidS : ∀ b ∈ newBlocks.dropLast, 1 ≤ (st.blocks b).size := by
      intro b hb
      have h1 := hA11 b hb
      have h2 := hnn b ((List.dropLast_sublist newBlocks).subset hb)
      omega
    obtain ⟨hc1, hc2, hc3, hc4⟩ :=
      cfg_ok_sizes hcs hszb hA2 hA6 hA5 hnb1 hnodup hA9 hfirstS hmidS hnn
    rw [if_pos ?hcond] at h
    case hcond =>
      constructor
      · rw [postBlocks_size]
        omega
      · intro b hb
        rw [postBlocks_size]
        have := hc2 b hb
        omega
    cases h

/-- C5: in the general case of the splice, when the final fragment block
has size 0 after being extended by the original tail: (1) if no fragment
symbol refers to it and it has no incoming edges, it is dropped from the
fragment block list and exactly its outgoing edges are discarded from the
fragment CFG; (2) if it has referring symbols or incoming edges but
exactly one outgoing fall-through edge, that edge's target is substituted
for it (its edges redirected and symbol referents migrated) and it is
dropped; (3) otherwise the repair fails with `NotImplementedError` (the
spec's *UnresolvedZeroBlock*); and (4) this is the only error
`_modify_block_insert` raises on inputs satisfying its asserted
preconditions and well-formedness. -/
theorem splice_tail_zero_spec {s : CfgState} {lastB : BlockId}
    (hlast : s.newBlocks.getLast? = some lastB)
    (hsz : (s.blocks lastB).size = 0) :
    (s.newSymbols.any (fun sym => decide (sym.referent = some lastB)) = false →
      (s.newCfg.inEdges lastB).isEmpty = true →
      ∃ s2, tailRepair s = Except.ok s2 ∧
        s2.newBlocks = s.newBlocks.dropLast ∧
        s2.blocks = s.blocks ∧ s2.modCfg = s.modCfg ∧
        s2.newSymbols = s.newSymbols ∧
        (∀ x, x ∈ s2.newCfg ↔ x ∈ s.newCfg ∧ x.source ≠ lastB)) ∧
    (∀ ft1 : Edge,
      (s.newSymbols.any (fun sym => decide (sym.referent = some lastB)) = true ∨
        (s.newCfg.inEdges lastB).isEmpty = false) →
      (s.newCfg.outEdges lastB).filter (fun e => _is_fallthrough_edge e) = [ft1] →
      ft1.target ≠ lastB →
      ∃ s2, tailRepair s = Except.ok s2 ∧
        s2.newBlocks = s.newBlocks.dropLast ∧
        s2.blocks = s.blocks ∧ s2.modCfg = s.modCfg ∧
        s2.newSymbols = s.newSymbols.map (fun sym =>
          if sym.referent = some lastB then { sym with referent := some ft1.target }
          else sym) ∧
        (∀ x ∈ s2.newCfg, x.source ≠ lastB ∧ x.target ≠ lastB)) ∧
    ((s.newSymbols.any (fun sym => decide (sym.referent = some lastB)) = true ∨
        (s.newCfg.inEdges lastB).isEmpty = false) →
      ((s.newCfg.outEdges lastB).filter (fun e => _is_fallthrough_edge e)).length ≠ 1 →
      tailRepair s = Except.error SpliceErr.notImplementedError) ∧
    (∀ (block : BlockId) (offset rl : Int) (newBytes : List Nat)
        (nbs : List BlockId) (ncfg : Cfg) (nse : List (Int × Nat))
        (nsyms : List GSymbol) (st : EngineState) (e : SpliceErr),
      _modify_block_insert block offset rl newBytes nbs ncfg nse nsyms st =
        Except.error e →
      spliceAsserts block offset rl newBytes nbs ncfg st →
      (∀ b ∈ st.biBlocks, 1 ≤ (st.blocks b).size) →
      nbs.Nodup →
      (∀ b ∈ nbs, 0 ≤ (st.blocks b).size) →
      e = SpliceErr.notImplementedError) := by
  refine ⟨?_, ?_, ?_, ?_⟩
  · intro hsym hinc
    have hcondT : (!(s.newSymbols.any (fun sym => decide (sym.referent = some lastB))) &&
        !(!(s.newCfg.inEdges lastB).isEmpty)) = true := by
      rw [hsym, hinc]
      rfl
    have hrun : tailRepair s = Except.ok { s with
        newCfg := (s.newCfg.outEdges lastB).foldl Cfg.discard s.newCfg,
        newBlocks := s.newBlocks.dropLast } := by
      unfold tailRepair
      rw [hlast]
      dsimp only
      rw [if_pos hsz]
      rw [if_pos hcondT]
    refine ⟨_, hrun, rfl, rfl, rfl, rfl, ?_⟩
    intro x
    dsimp only
    rw [discard_fold_mem]
    constructor
    · rintro ⟨hx, hnm⟩
      exact ⟨hx, fun hsrc => hnm (Cfg.mem_outEdges.mpr ⟨hx, hsrc⟩)⟩
    · rintro ⟨hx, hsrc⟩
      exact ⟨hx, fun hm => hsrc (Cfg.mem_outEdges.mp hm).2⟩
  · intro ft1 hdisj hfilter hne
    have hcondF : (!(s.newSymbols.any (fun sym => decide (sym.referent = some lastB))) &&
        !(!(s.newCfg.inEdges lastB).isEmpty)) = false := by
      rcases hdisj with h | h <;> simp [h]
    have hrun : tailRepair s = Except.ok { s with
        newCfg := (_substitute_block lastB ft1.target s.newCfg s.newSymbols).1,
        newSymbols := (_substitute_block lastB ft1.target s.newCfg s.newSymbols).2,
        newBlocks := s.newBlocks.dropLast } := by
      unfold tailRepair
      rw [hlast]
      dsimp only
      rw [if_pos hsz]
      rw [if_neg (by rw [hcondF]; exact Bool.false_ne_true), hfilter]
    refine ⟨_, hrun, rfl, rfl, rfl, ?_, ?_⟩
    · dsimp only
      unfold _substitute_block
      rfl
    · dsimp only
      exact substitute_no_old hne s.newCfg s.newSymbols
  · intro hdisj hlen
    have hcondF : (!(s.newSymbols.any (fun sym => decide (sym.referent = some lastB))) &&
        !(!(s.newCfg.inEdges lastB).isEmpty)) = false := by
      rcases hdisj with h | h <;> simp [h]
    unfold tailRepair
    rw [hlast]
    dsimp only
    rw [if_pos hsz]
    rw [if_neg (by rw [hcondF]; exact Bool.false_ne_true)]
    cases hfe : (s.newCfg.outEdges lastB).filter (fun e => _is_fallthrough_edge e) with
    | nil => rfl
    | cons a l =>
      cases l with
      | nil => exact absurd (by rw [hfe]; rfl) hlen
      | cons b l2 => rfl
  · intro block offset rl newBytes nbs ncfg nse nsyms st e h hA hbi hnd hnn
    exact splice_error_only h hA hbi hnd hnn

/-- Running the tail repair on `sampleCfgStateTail` hits the
unresolved-zero-block failure. -/
theorem splice_tail_zero_spec_witness :
    sampleCfgStateTail.newBlocks.getLast? = some 2 ∧
      (sampleCfgStateTail.blocks 2).size = 0 ∧
      tailRepair sampleCfgStateTail = Except.error SpliceErr.notImplementedError :=
  ⟨rfl, rfl,
    (@splice_tail_zero_spec sampleCfgStateTail 2 rfl rfl).2.2.1
      (Or.inl rfl) (by decide)⟩
